import Mathlib

/-!
FetchPKG: manifest-driven piece assembly.

A shallow embedding of `main.go` (package `main`): the URL rewriting and the
output file name of `main`, the streaming loop of `fetchPiece`, and the
sort / fetch / check loop of `main`, followed by theorems about them.

Go strings are byte sequences, so a `GoString` is a `List UInt8`; `len` is
`List.length` and a slice `s[:k]` is `List.take k s`.  The `int64` fields and
counters are integers, with `wrap64` wherever the Go code adds or multiplies.
-/

namespace FetchPKG

/-! ## Strings -/

/-- A Go `string`: an immutable sequence of bytes. -/
abbrev GoString := List UInt8

/-- The bytes of an ASCII string literal of the source. -/
def bytes (s : String) : GoString := s.toList.map (fun c => UInt8.ofNat c.toNat)

/-- Go `strings.HasSuffix`: `len(s) >= len(suffix) && s[len(s)-len(suffix):] == suffix`. -/
def hasSuffix (s suffix : GoString) : Bool :=
  decide (suffix.length ≤ s.length) && decide (s.drop (s.length - suffix.length) = suffix)

/-- The URL rewriting of `main` (lines 112-120): a trailing `_sc.pkg`, `-DP.pkg`
or `_0.pkg` is cut off and `.json` is put in its place. -/
def normalizeURL (url : GoString) : GoString :=
  if hasSuffix url (bytes "_sc.pkg") then url.take (url.length - 7) ++ bytes ".json"
  else if hasSuffix url (bytes "-DP.pkg") then url.take (url.length - 7) ++ bytes ".json"
  else if hasSuffix url (bytes "_0.pkg") then url.take (url.length - 6) ++ bytes ".json"
  else url

/-- Go `os.IsPathSeparator` on Unix: the byte `/`. -/
def isPathSeparator (c : UInt8) : Bool := c == 47

/-- Go `filepath.Base` on Unix (the volume name is empty there): the empty path
gives `.`, trailing separators are stripped, the last element is what follows
the last separator, and a path of separators only gives `/`. -/
def base (path : GoString) : GoString :=
  if path = [] then bytes "."
  else
    let stripped := path.rdropWhile isPathSeparator
    let last := stripped.rtakeWhile (fun c => !isPathSeparator c)
    if last = [] then bytes "/" else last

/-- The output file name of `main` (lines 122-127).  `none` is the run-time
panic of the slice expression `Base(url)[:len(Base(url))-4]` when the base name
has fewer than four bytes. -/
def outputFilename (output url : GoString) : Option GoString :=
  if output ≠ [] then some output
  else if 4 ≤ (base url).length then
    some ((base url).take ((base url).length - 4) ++ bytes "pkg")
  else none

/-! ## Data model -/

/-- Go `type Piece struct`: the four decoded JSON fields; the `int64` fields are integers. -/
structure Piece where
  url : GoString
  fileOffset : Int
  fileSize : Int
  hashValue : GoString
deriving DecidableEq

/-- Go `type Manifest struct`. -/
structure Manifest where
  pieces : List Piece
  originalFileSize : Int
deriving DecidableEq

/-- Two's-complement wrap-around of an `int64` result. -/
def wrap64 (x : Int) : Int := (x + 2 ^ 63) % 2 ^ 64 - 2 ^ 63

/-! ## What the program calls but does not define

The digests, `strings.EqualFold` and `sort.Slice` belong to the Go standard
library; the servers, the disk and the seeks belong to the environment.  They
are parameters of the embedding. -/

/-- The standard-library functions used by `main` and `fetchPiece`. -/
structure Lib where
  /-- lowercase hex of `sha1` of the bytes: `fmt.Sprintf("%x", hsha1.Sum(nil))` -/
  sha1hex : List UInt8 → GoString
  /-- lowercase hex of `sha256` of the bytes -/
  sha256hex : List UInt8 → GoString
  /-- Go `strings.EqualFold` -/
  equalFold : GoString → GoString → Bool
  /-- The order in which `sort.Slice` leaves a slice whose keys (the values compared
  by `less`) are the given list: position `k` of the result holds the element that
  stood at index `(sortOrder keys)[k]`.  `sort.Slice` sees the slice only through
  `less` and `swap`, so the order depends on the keys alone. -/
  sortOrder : List Int → List Nat

/-- What the standard library documents: `EqualFold` accepts equal strings, and
`sort.Slice` rearranges the slice (a permutation of its indices) so that it is
sorted by `less`; the sort is not assumed stable. -/
structure Lib.Sound (lib : Lib) : Prop where
  fold_refl : ∀ s, lib.equalFold s s = true
  sort_perm : ∀ keys, (lib.sortOrder keys).Perm (List.range keys.length)
  sort_sorted : ∀ keys, ((lib.sortOrder keys).map (fun i => keys.getD i 0)).Sorted (· ≤ ·)

/-- A response body as `fetchPiece` reads it: the `Read` calls that returned
`err == nil` (each fills at most the 5 MiB buffer), then the final `Read` call,
which returns `last` together with `io.EOF` (`eof = true`) or with another
error.  A body that never ends is not a `Stream`. -/
structure Stream where
  reads : List (List UInt8)
  last : List UInt8
  eof : Bool
deriving DecidableEq

/-- All bytes a stream delivers. -/
def Stream.body (st : Stream) : List UInt8 := st.reads.flatten ++ st.last

/-- What a GET of a piece URL gives. -/
inductive Reply where
  /-- The call `http.NewRequest` returns an error -/
  | buildError
  /-- The call `client.Do` returns an error -/
  | doError
  /-- a response arrives, its body is read as the stream says -/
  | stream (st : Stream)
deriving DecidableEq

/-- The environment of a run. -/
structure Env where
  /-- result of `fetchManifest(url)`; `none` is any of its errors -/
  manifest : GoString → Option Manifest
  /-- whether `os.Create(filename)` fails -/
  createFails : GoString → Bool
  /-- what the server of a piece URL answers -/
  piece : GoString → Reply
  /-- The call `f.Write` of `n` bytes to a file of length `len`: `none` writes them all,
  `some k` writes the first `k` of them and returns an error -/
  writeFault : (len n : Nat) → Option Nat
  /-- whether the `k`-th call of `f.Seek` (counted from 0) fails -/
  seekFails : Nat → Bool

/-- An open file: its content and the position of the next write. -/
structure File where
  data : List UInt8
  pos : Nat
deriving DecidableEq

/-- Go `f.Write(b)` when it succeeds: the bytes go to the current position (a
gap after the end is filled with zeros), and the position moves past them. -/
def File.write (f : File) (b : List UInt8) : File :=
  { data := f.data.take f.pos ++ List.replicate (f.pos - f.data.length) 0 ++ b
              ++ f.data.drop (f.pos + b.length)
    pos := f.pos + b.length }

/-- What a run prints or does, in order.  A progress line is kept as its integer
percentage and the summary line as the final length; file name, elapsed time and
the floating-point rates are not part of the model. -/
inductive Event where
  /-- The function `fetchPiece` is called for this URL -/
  | fetch (url : GoString)
  /-- The line `Downloading ...: pct%` -/
  | progress (pct : Int)
  /-- The line `WARNING: inconsistent piece offset - expected %d, got %d` -/
  | warnOffset (expected got : Int)
  /-- The line `WARNING: inconsistent piece size - expected %d, got %d` -/
  | warnSize (expected got : Int)
  /-- The line `WARNING: inconsistent piece hash - expected %s, got %s` -/
  | warnHash (expected got : GoString)
  /-- The line `WARNING: inconsistent file size - expected %d, got %d` -/
  | warnFileSize (expected got : Int)
  /-- The line `Usage: ...` -/
  | usage
  /-- The line `Error fetching manifest: ...` -/
  | errManifest
  /-- The line `Error creating file: ...` -/
  | errCreate
  /-- The line `Error seeking file: ...` -/
  | errSeek
  /-- The line `Error fetching piece: ...` -/
  | errPiece
  /-- The line `Completed ...` -/
  | completed (length : Int)
deriving DecidableEq

/-- Whether an event is one of the four `WARNING:` lines. -/
def Event.isWarning : Event → Bool
  | .warnOffset _ _ => true
  | .warnSize _ _ => true
  | .warnHash _ _ => true
  | .warnFileSize _ _ => true
  | _ => false

/-- Whether an event is the hash-mismatch warning. -/
def Event.isHashWarning : Event → Bool
  | .warnHash _ _ => true
  | _ => false

/-- The URL of a `fetch` event. -/
def Event.fetched : Event → Option GoString
  | .fetch u => some u
  | _ => none

/-- The state of a run after `os.Create`: the output file, the counter
`totalBytes`, the number of `Seek` calls made so far and what was printed. -/
structure State where
  file : File
  totalBytes : Int
  seeks : Nat
  trace : List Event
deriving DecidableEq

/-- The state right after `os.Create` and `var totalBytes int64`. -/
def State.init : State := { file := ⟨[], 0⟩, totalBytes := 0, seeks := 0, trace := [] }

/-- Print or record events. -/
def State.emit (s : State) (evs : List Event) : State := { s with trace := s.trace ++ evs }

/-- How a piece of code ends: normally with a value, with an error (in `main`:
the error is printed and `os.Exit(1)` is called), or with a run-time panic. -/
inductive Res (α : Type) where
  | ok (s : State) (a : α)
  | err (s : State)
  | panic (s : State)
deriving DecidableEq

/-- The state in which a piece of code ends. -/
def Res.state {α : Type} : Res α → State
  | .ok s _ => s
  | .err s => s
  | .panic s => s

/-- The process exit code: 0 on normal completion, 1 after `os.Exit(1)`, 2 after a panic. -/
def Res.exitCode {α : Type} : Res α → Nat
  | .ok _ _ => 0
  | .err _ => 1
  | .panic _ => 2

/-! ## `fetchPiece` -/

/-- The body of `if n > 0 { ... }` in the read loop of `fetchPiece` (lines 74-87)
for one `Read` result `buf`: write it to the file, add `n` to `totalBytes` and
print the progress line.  A failing `Write` returns its error; the percentage
`int(100 * *totalBytes / filesize)` panics (integer divide by zero) when
`filesize` is zero. -/
def onChunk (env : Env) (filesize : Int) (s : State) (buf : List UInt8) : Res Unit :=
  if buf.length = 0 then .ok s ()
  else
    match env.writeFault s.file.data.length buf.length with
    | some k => .err { s with file := s.file.write (buf.take k) }
    | none =>
      let s1 : State :=
        { s with file := s.file.write buf, totalBytes := wrap64 (s.totalBytes + buf.length) }
      if filesize = 0 then .panic s1
      else .ok (s1.emit [.progress (wrap64 (Int.tdiv (wrap64 (100 * s1.totalBytes)) filesize))]) ()

/-- The iterations of the read loop of `fetchPiece` whose `Read` returned no
error; the value is what the two hashes have been fed so far. -/
def readLoop (env : Env) (filesize : Int) :
    List (List UInt8) → State → List UInt8 → Res (List UInt8)
  | [], s, hashed => .ok s hashed
  | buf :: rest, s, hashed =>
    match onChunk env filesize s buf with
    | .ok s1 _ => readLoop env filesize rest s1 (hashed ++ buf)
    | .err s1 => .err s1
    | .panic s1 => .panic s1

/-- Go `fetchPiece(url, f, filesize, totalBytes, startTime)` (lines 53-100): the
file and the counter are in the state, the value is the pair of hex digests. -/
def fetchPiece (lib : Lib) (env : Env) (url : GoString) (filesize : Int) (s : State) :
    Res (GoString × GoString) :=
  let s0 := s.emit [.fetch url]
  match env.piece url with
  | .buildError => .err s0
  | .doError => .err s0
  | .stream st =>
    match readLoop env filesize st.reads s0 [] with
    | .err s1 => .err s1
    | .panic s1 => .panic s1
    | .ok s1 hashed =>
      match onChunk env filesize s1 st.last with
      | .err s2 => .err s2
      | .panic s2 => .panic s2
      | .ok s2 _ =>
        if st.eof then .ok s2 (lib.sha1hex (hashed ++ st.last), lib.sha256hex (hashed ++ st.last))
        else .err s2

/-! ## The assembly loop of `main` -/

/-- The slice `pieces` after `sort.Slice(pieces, less)` with
`less(i, j) = pieces[i].FileOffset < pieces[j].FileOffset` (lines 144-147). -/
def sortPieces (lib : Lib) (pieces : List Piece) : List Piece :=
  (lib.sortOrder (pieces.map (·.fileOffset))).filterMap (fun i => pieces[i]?)

/-- Go `f.Seek(0, io.SeekEnd)` followed by `main`'s error check: the position
moves to the end of the file and the length is returned. -/
def seekEnd (env : Env) (s : State) : Res Int :=
  if env.seekFails s.seeks then
    .err ({ s with seeks := s.seeks + 1 }.emit [.errSeek])
  else
    .ok { file := ⟨s.file.data, s.file.data.length⟩, totalBytes := s.totalBytes,
          seeks := s.seeks + 1, trace := s.trace }
      s.file.data.length

/-- The check before a piece is fetched (lines 156-158). -/
def offsetCheck (offset : Int) (p : Piece) : List Event :=
  if offset ≠ p.fileOffset then [.warnOffset p.fileOffset offset] else []

/-- The check after a piece is fetched (lines 172-174). -/
def sizeCheck (offset : Int) (p : Piece) : List Event :=
  if offset ≠ wrap64 (p.fileOffset + p.fileSize) then
    [.warnSize (wrap64 (p.fileOffset + p.fileSize)) offset]
  else []

/-- The hash check of a piece (lines 176-178). -/
def hashCheck (lib : Lib) (p : Piece) (hashes : GoString × GoString) : List Event :=
  if (!lib.equalFold p.hashValue hashes.1 && !lib.equalFold p.hashValue hashes.2) then
    [.warnHash p.hashValue hashes.1]
  else []

/-- The final check (lines 187-189). -/
def fileSizeCheck (offset : Int) (m : Manifest) : List Event :=
  if offset ≠ m.originalFileSize then [.warnFileSize m.originalFileSize offset] else []

/-- One iteration of `for _, piece := range pieces` (lines 150-178). -/
def pieceStep (lib : Lib) (env : Env) (filesize : Int) (s : State) (p : Piece) : Res Unit :=
  match seekEnd env s with
  | .err s1 => .err s1
  | .panic s1 => .panic s1
  | .ok s1 offset =>
    match fetchPiece lib env p.url filesize (s1.emit (offsetCheck offset p)) with
    | .err s2 => .err (s2.emit [.errPiece])
    | .panic s2 => .panic s2
    | .ok s2 hashes =>
      match seekEnd env s2 with
      | .err s3 => .err s3
      | .panic s3 => .panic s3
      | .ok s3 offset2 => .ok ((s3.emit (sizeCheck offset2 p)).emit (hashCheck lib p hashes)) ()

/-- The loop `for _, piece := range pieces` (lines 149-179). -/
def loop (lib : Lib) (env : Env) (filesize : Int) : List Piece → State → Res Unit
  | [], s => .ok s ()
  | p :: rest, s =>
    match pieceStep lib env filesize s p with
    | .ok s1 _ => loop lib env filesize rest s1
    | .err s1 => .err s1
    | .panic s1 => .panic s1

/-- The end of `main` (lines 181-194): the final `Seek`, the file-size check and the summary. -/
def finalize (env : Env) (m : Manifest) (s : State) : Res Unit :=
  match seekEnd env s with
  | .err s1 => .err s1
  | .panic s1 => .panic s1
  | .ok s1 offset => .ok ((s1.emit (fileSizeCheck offset m)).emit [.completed offset]) ()

/-- What `main` does with a fetched manifest once the output file is created
(lines 143-194): sort, run the loop, finalize. -/
def assemble (lib : Lib) (env : Env) (m : Manifest) : Res Unit :=
  match loop lib env m.originalFileSize (sortPieces lib m.pieces) State.init with
  | .ok s _ => finalize env m s
  | .err s => .err s
  | .panic s => .panic s

/-- Go `fetchManifest(url)` (lines 30-51): the request, the response and the JSON
decoding belong to the environment; `none` is any of its three errors. -/
def fetchManifest (env : Env) (url : GoString) : Option Manifest := env.manifest url

/-- What a whole run of the program leaves behind. -/
structure Run where
  /-- the process exit code -/
  exitCode : Nat
  /-- the output file, if `os.Create` was reached and succeeded: its name and content -/
  output : Option (GoString × List UInt8)
  /-- what was printed and fetched -/
  trace : List Event
deriving DecidableEq

/-- Go `main` (lines 102-195), for the flag value `-o output` and the positional
arguments `args`. -/
def main (lib : Lib) (env : Env) (output : GoString) (args : List GoString) : Run :=
  match args with
  | [] => ⟨1, none, [.usage]⟩
  | arg :: _ =>
    let url := normalizeURL arg
    match outputFilename output url with
    | none => ⟨2, none, []⟩
    | some filename =>
      match fetchManifest env url with
      | none => ⟨1, none, [.errManifest]⟩
      | some m =>
        if env.createFails filename then ⟨1, none, [.errCreate]⟩
        else
          let r := assemble lib env m
          ⟨r.exitCode, some (filename, r.state.file.data), r.state.trace⟩

/-! ## Reference instances

A standard library and an environment on which the definitions can be run. -/

/-- ASCII case folding of one byte. -/
def foldByte (c : UInt8) : UInt8 := if 65 ≤ c ∧ c ≤ 90 then c + 32 else c

/-- The order of an insertion sort, which is what `sort.Slice` runs on a slice of
at most 12 elements. -/
def insertionOrder (keys : List Int) : List Nat :=
  (List.range keys.length).insertionSort (fun i j => keys.getD i 0 ≤ keys.getD j 0)

/-- A 32-bit word of the digest computations. -/
def w32 (x : Nat) : Nat := x % 2 ^ 32

/-- Rotate a 32-bit word left. -/
def rotl (x n : Nat) : Nat := w32 ((x <<< n) ||| (x >>> (32 - n)))

/-- Rotate a 32-bit word right. -/
def rotr (x n : Nat) : Nat := w32 ((x >>> n) ||| (x <<< (32 - n)))

/-- Bitwise complement of a 32-bit word. -/
def not32 (x : Nat) : Nat := 2 ^ 32 - 1 - x

/-- Big-endian bytes of a number, `n` of them. -/
def beBytes : Nat → Nat → List Nat
  | 0, _ => []
  | n + 1, x => beBytes n (x / 256) ++ [x % 256]

/-- The padded message of SHA-1 and SHA-256, as 64-byte blocks of byte values. -/
def shaPad (msg : List UInt8) : List Nat :=
  let m := msg.map (·.toNat)
  m ++ [128] ++ List.replicate ((119 - m.length % 64) % 64) 0 ++ beBytes 8 (8 * m.length)

/-- Big-endian 32-bit words of a byte list. -/
def beWords : Nat → List Nat → List Nat
  | 0, _ => []
  | n + 1, a :: b :: c :: d :: rest => (((a * 256 + b) * 256 + c) * 256 + d) :: beWords n rest
  | _ + 1, _ => []

/-- Extend a message schedule by `n` words with the rule `next`. -/
def extendSchedule (next : List Nat → Nat) : Nat → List Nat → List Nat
  | 0, w => w
  | n + 1, w => extendSchedule next n (w ++ [next w])

/-- The next word of the SHA-1 schedule. -/
def sha1Next (w : List Nat) : Nat :=
  let t := w.length
  rotl (w.getD (t - 3) 0 ^^^ w.getD (t - 8) 0 ^^^ w.getD (t - 14) 0 ^^^ w.getD (t - 16) 0) 1

/-- One round of SHA-1. -/
def sha1Round (st : List Nat) (tw : Nat × Nat) : List Nat :=
  match st with
  | [a, b, c, d, e] =>
    let t := tw.1
    let f := if t < 20 then (b &&& c) ||| (not32 b &&& d)
      else if t < 40 then b ^^^ c ^^^ d
      else if t < 60 then (b &&& c) ||| (b &&& d) ||| (c &&& d)
      else b ^^^ c ^^^ d
    let k := if t < 20 then 0x5A827999 else if t < 40 then 0x6ED9EBA1
      else if t < 60 then 0x8F1BBCDC else 0xCA62C1D6
    [w32 (rotl a 5 + f + e + k + tw.2), a, rotl b 30, c, d]
  | _ => st

/-- SHA-1 on one block. -/
def sha1Block (h : List Nat) (block : List Nat) : List Nat :=
  let w := extendSchedule sha1Next 64 (beWords 16 block)
  let r := (List.range 80).zip w |>.foldl sha1Round h
  List.zipWith (fun x y => w32 (x + y)) h r

/-- Cut a list into blocks of 64, `n` of them. -/
def blocks64 : Nat → List Nat → List (List Nat)
  | 0, _ => []
  | n + 1, l => l.take 64 :: blocks64 n (l.drop 64)

/-- Lowercase hexadecimal digit. -/
def hexDigit (n : Nat) : UInt8 := UInt8.ofNat (if n < 10 then 48 + n else 87 + n)

/-- Lowercase hex of 32-bit words, as `fmt.Sprintf("%x", sum)` prints a digest. -/
def hexWords (ws : List Nat) : GoString :=
  (ws.flatMap (beBytes 4)).flatMap (fun b => [hexDigit (b / 16), hexDigit (b % 16)])

/-- SHA-1 of a byte sequence, in lowercase hex. -/
def sha1hex (msg : List UInt8) : GoString :=
  let p := shaPad msg
  hexWords ((blocks64 (p.length / 64) p).foldl sha1Block
    [0x67452301, 0xEFCDAB89, 0x98BADCFE, 0x10325476, 0xC3D2E1F0])

/-- The round constants of SHA-256. -/
def k256 : List Nat :=
  [0x428a2f98, 0x71374491, 0xb5c0fbcf, 0xe9b5dba5, 0x3956c25b, 0x59f111f1, 0x923f82a4, 0xab1c5ed5,
   0xd807aa98, 0x12835b01, 0x243185be, 0x550c7dc3, 0x72be5d74, 0x80deb1fe, 0x9bdc06a7, 0xc19bf174,
   0xe49b69c1, 0xefbe4786, 0x0fc19dc6, 0x240ca1cc, 0x2de92c6f, 0x4a7484aa, 0x5cb0a9dc, 0x76f988da,
   0x983e5152, 0xa831c66d, 0xb00327c8, 0xbf597fc7, 0xc6e00bf3, 0xd5a79147, 0x06ca6351, 0x14292967,
   0x27b70a85, 0x2e1b2138, 0x4d2c6dfc, 0x53380d13, 0x650a7354, 0x766a0abb, 0x81c2c92e, 0x92722c85,
   0xa2bfe8a1, 0xa81a664b, 0xc24b8b70, 0xc76c51a3, 0xd192e819, 0xd6990624, 0xf40e3585, 0x106aa070,
   0x19a4c116, 0x1e376c08, 0x2748774c, 0x34b0bcb5, 0x391c0cb3, 0x4ed8aa4a, 0x5b9cca4f, 0x682e6ff3,
   0x748f82ee, 0x78a5636f, 0x84c87814, 0x8cc70208, 0x90befffa, 0xa4506ceb, 0xbef9a3f7, 0xc67178f2]

/-- The next word of the SHA-256 schedule. -/
def sha256Next (w : List Nat) : Nat :=
  let t := w.length
  let x := w.getD (t - 15) 0
  let y := w.getD (t - 2) 0
  let s0 := rotr x 7 ^^^ rotr x 18 ^^^ (x >>> 3)
  let s1 := rotr y 17 ^^^ rotr y 19 ^^^ (y >>> 10)
  w32 (w.getD (t - 16) 0 + s0 + w.getD (t - 7) 0 + s1)

/-- One round of SHA-256. -/
def sha256Round (st : List Nat) (kw : Nat × Nat) : List Nat :=
  match st with
  | [a, b, c, d, e, f, g, h] =>
    let s1 := rotr e 6 ^^^ rotr e 11 ^^^ rotr e 25
    let ch := (e &&& f) ^^^ (not32 e &&& g)
    let t1 := h + s1 + ch + kw.1 + kw.2
    let s0 := rotr a 2 ^^^ rotr a 13 ^^^ rotr a 22
    let maj := (a &&& b) ^^^ (a &&& c) ^^^ (b &&& c)
    [w32 (t1 + s0 + maj), a, b, c, w32 (d + t1), e, f, g]
  | _ => st

/-- SHA-256 on one block. -/
def sha256Block (h : List Nat) (block : List Nat) : List Nat :=
  let w := extendSchedule sha256Next 48 (beWords 16 block)
  let r := (k256.zip w).foldl sha256Round h
  List.zipWith (fun x y => w32 (x + y)) h r

/-- SHA-256 of a byte sequence, in lowercase hex. -/
def sha256hex (msg : List UInt8) : GoString :=
  let p := shaPad msg
  hexWords ((blocks64 (p.length / 64) p).foldl sha256Block
    [0x6a09e667, 0xbb67ae85, 0x3c6ef372, 0xa54ff53a, 0x510e527f, 0x9b05688c, 0x1f83d9ab, 0x5be0cd19])

/-- ASCII case folding, byte by byte: what `strings.EqualFold` computes when
one of its arguments is a string of ASCII letters and digits, as a hex digest is. -/
def equalFoldASCII (s t : GoString) : Bool := decide (s.map foldByte = t.map foldByte)

/-- The reference standard library: the real SHA-1 and SHA-256, ASCII case
folding and the insertion-sort order. -/
def stdLib : Lib :=
  { sha1hex := sha1hex, sha256hex := sha256hex, equalFold := equalFoldASCII,
    sortOrder := insertionOrder }

/-- An environment without faults: every `Create`, `Write` and `Seek` succeeds;
no manifest is served (the assembly is run on a given manifest). -/
def Env.ofServer (piece : GoString → Reply) : Env :=
  { manifest := fun _ => none, createFails := fun _ => false, piece := piece,
    writeFault := fun _ _ => none, seekFails := fun _ => false }

/-- A reply that delivers `body` in one `Read` ending with `io.EOF`. -/
def Reply.ofBody (body : List UInt8) : Reply := .stream ⟨[], body, true⟩

/-! ## Predicates of the statements -/

/-- Every `Write` succeeds and every `Seek` succeeds. -/
def Env.NoFault (env : Env) : Prop :=
  (∀ len n, env.writeFault len n = none) ∧ (∀ k, env.seekFails k = false)

/-- The URL answers with a body that is read to `io.EOF`. -/
def Env.Serves (env : Env) (url : GoString) (body : List UInt8) : Prop :=
  ∃ st, env.piece url = .stream st ∧ st.eof = true ∧ st.body = body

/-- The bytes a URL delivers before its stream ends (nothing if the request fails). -/
def Env.bodyOf (env : Env) (url : GoString) : List UInt8 :=
  match env.piece url with
  | .stream st => st.body
  | _ => []

/-- The pieces follow one another from offset `start` to offset `stop`: each begins
where the one before ends and has a positive size. -/
def Chained : Int → List Piece → Int → Prop
  | start, [], stop => start = stop
  | start, p :: rest, stop =>
    p.fileOffset = start ∧ 0 < p.fileSize ∧ Chained (start + p.fileSize) rest stop

/-- Each piece begins where the one before it in the list ends. -/
def Contiguous : List Piece → Prop
  | [] => True
  | [_] => True
  | p :: q :: rest => p.fileOffset + p.fileSize = q.fileOffset ∧ Contiguous (q :: rest)

/-- The URLs that `fetchPiece` was called for, in order. -/
def fetchedURLs (trace : List Event) : List GoString := trace.filterMap Event.fetched

/-- The `WARNING:` lines of a trace. -/
def warnings (trace : List Event) : List Event := trace.filter Event.isWarning

/-- The invariant of the run: the file position is at the end of the file, and
`totalBytes` is the file length (as an `int64`). -/
def Inv (s : State) : Prop :=
  s.file.pos = s.file.data.length ∧ s.totalBytes = wrap64 s.file.data.length

/-- Only progress lines. -/
def Quiet (evs : List Event) : Prop := ∀ e ∈ evs, ∃ pct, e = Event.progress pct

/-- From `s` to `t` the bytes `added` were appended to the file and the events
`evs` to the trace. -/
structure Advance (s t : State) (added : List UInt8) (evs : List Event) : Prop where
  data : t.file.data = s.file.data ++ added
  trace : t.trace = s.trace ++ evs

/-! ## Concrete scenarios -/

/-- Piece `A` of the end-to-end scenario: offset 0, size 3, the SHA-1 of `abc`. -/
def pieceA : Piece := ⟨bytes "A", 0, 3, bytes "a9993e364706816aba3e25717850c26c9cd0d89d"⟩

/-- Piece `B` of the end-to-end scenario: offset 3, size 3, the SHA-256 of `def`. -/
def pieceB : Piece :=
  ⟨bytes "B", 3, 3, bytes "cb8379ac2098aa165029e3938a51da0bcecfc008fd6795f401178647f96c5b34"⟩

/-- The manifest of the end-to-end scenario, with its pieces out of order. -/
def demoManifest : Manifest := ⟨[pieceB, pieceA], 6⟩

/-- The server of the end-to-end scenario: `A` serves `abc`, `B` serves `def`. -/
def demoServer (url : GoString) : Reply :=
  if url = bytes "A" then .ofBody (bytes "abc")
  else if url = bytes "B" then .ofBody (bytes "def")
  else .doError

/-- The same two pieces with `originalFileSize` 0 in the manifest. -/
def zeroSizeManifest : Manifest := ⟨[pieceA, pieceB], 0⟩

/-- Three contiguous pieces of declared size 3, with the SHA-1 of what their
URLs serve below. -/
def driftManifest : Manifest :=
  ⟨[⟨bytes "A", 0, 3, bytes "81fe8bfe87576c3ecb22426f8e57847382917acf"⟩,
    ⟨bytes "B", 3, 3, bytes "f822051471957b7bbebb8ab088fe9bd6d14f4261"⟩,
    ⟨bytes "C", 6, 3, bytes "481743d632b80d39bc2771d19be3ca3005b3f8af"⟩], 9⟩

/-- A server whose first body is one byte too long and whose second body is one
byte too short: `A` serves `abcd`, `B` serves `ef`, `C` serves `ghi`. -/
def driftServer (url : GoString) : Reply :=
  if url = bytes "A" then .ofBody (bytes "abcd")
  else if url = bytes "B" then .ofBody (bytes "ef")
  else if url = bytes "C" then .ofBody (bytes "ghi")
  else .doError

/-- A third piece after `A` and `B`. -/
def pieceC : Piece := ⟨bytes "C", 6, 3, bytes "481743d632b80d39bc2771d19be3ca3005b3f8af"⟩

/-- A server whose first two bodies are one byte too short each: `A` serves `ab`,
`B` serves `de`, `C` serves `ghi`. -/
def shortServer (url : GoString) : Reply :=
  if url = bytes "A" then .ofBody (bytes "ab")
  else if url = bytes "B" then .ofBody (bytes "de")
  else if url = bytes "C" then .ofBody (bytes "ghi")
  else .doError

/-- A server on which the body of `B` breaks off with a read error after `de`. -/
def brokenServer (url : GoString) : Reply :=
  if url = bytes "A" then .ofBody (bytes "abc")
  else if url = bytes "B" then .stream ⟨[bytes "de"], [], false⟩
  else if url = bytes "C" then .ofBody (bytes "ghi")
  else .doError

/-! ## URL rewriting and output file name: lemmas -/

theorem hasSuffix_iff (s t : GoString) : hasSuffix s t = true ↔ t <:+ s := by
  unfold hasSuffix
  rw [Bool.and_eq_true, decide_eq_true_iff, decide_eq_true_iff]
  constructor
  · rintro ⟨_, h⟩
    exact List.suffix_iff_eq_drop.mpr h.symm
  · intro h
    exact ⟨h.length_le, (List.suffix_iff_eq_drop.mp h).symm⟩

theorem take_append_sub {α : Type} (p t : List α) :
    (p ++ t).take ((p ++ t).length - t.length) = p := by
  simp

theorem getLast?_eq_of_suffix {α : Type} {t s : List α} (h : t <:+ s) (ht : t ≠ []) :
    s.getLast? = t.getLast? := by
  obtain ⟨r, rfl⟩ := h
  rw [List.getLast?_append_of_ne_nil r ht]

theorem json_not_suffix (p t : GoString) (ht : t.getLast? = some 103) :
    hasSuffix (p ++ bytes ".json") t = false := by
  rw [Bool.eq_false_iff]
  intro h
  rw [hasSuffix_iff] at h
  have hne : t ≠ [] := by
    rintro rfl
    simp at ht
  have h1 := getLast?_eq_of_suffix h hne
  rw [ht, List.getLast?_append_of_ne_nil p (by decide : bytes ".json" ≠ [])] at h1
  revert h1
  decide

theorem normalizeURL_json (p : GoString) :
    normalizeURL (p ++ bytes ".json") = p ++ bytes ".json" := by
  unfold normalizeURL
  rw [json_not_suffix p _ (by decide), json_not_suffix p _ (by decide),
    json_not_suffix p _ (by decide)]
  simp

theorem normalizeURL_sc (p : GoString) :
    normalizeURL (p ++ bytes "_sc.pkg") = p ++ bytes ".json" := by
  have h : hasSuffix (p ++ bytes "_sc.pkg") (bytes "_sc.pkg") = true :=
    (hasSuffix_iff _ _).mpr (List.suffix_append _ _)
  unfold normalizeURL
  rw [if_pos h]
  have := take_append_sub p (bytes "_sc.pkg")
  rw [show (bytes "_sc.pkg").length = 7 by decide] at this
  rw [this]

theorem hasSuffix_other (p a b : GoString) (h1 : ¬ a <:+ b) (h2 : ¬ b <:+ a) :
    hasSuffix (p ++ b) a = false := by
  rw [Bool.eq_false_iff]
  intro h
  rw [hasSuffix_iff] at h
  have hb : b <:+ p ++ b := List.suffix_append _ _
  rcases Nat.le_total a.length b.length with hl | hl
  · exact h1 (List.suffix_of_suffix_length_le h hb hl)
  · exact h2 (List.suffix_of_suffix_length_le hb h hl)

theorem normalizeURL_dp (p : GoString) :
    normalizeURL (p ++ bytes "-DP.pkg") = p ++ bytes ".json" := by
  have h0 : hasSuffix (p ++ bytes "-DP.pkg") (bytes "_sc.pkg") = false :=
    hasSuffix_other p _ _ (by decide) (by decide)
  have h : hasSuffix (p ++ bytes "-DP.pkg") (bytes "-DP.pkg") = true :=
    (hasSuffix_iff _ _).mpr (List.suffix_append _ _)
  unfold normalizeURL
  rw [h0, if_neg Bool.false_ne_true, if_pos h]
  have := take_append_sub p (bytes "-DP.pkg")
  rw [show (bytes "-DP.pkg").length = 7 by decide] at this
  rw [this]

theorem normalizeURL_0 (p : GoString) :
    normalizeURL (p ++ bytes "_0.pkg") = p ++ bytes ".json" := by
  have h0 : hasSuffix (p ++ bytes "_0.pkg") (bytes "_sc.pkg") = false :=
    hasSuffix_other p _ _ (by decide) (by decide)
  have h1 : hasSuffix (p ++ bytes "_0.pkg") (bytes "-DP.pkg") = false :=
    hasSuffix_other p _ _ (by decide) (by decide)
  have h : hasSuffix (p ++ bytes "_0.pkg") (bytes "_0.pkg") = true :=
    (hasSuffix_iff _ _).mpr (List.suffix_append _ _)
  unfold normalizeURL
  rw [h0, h1, if_neg Bool.false_ne_true, if_neg Bool.false_ne_true, if_pos h]
  have := take_append_sub p (bytes "_0.pkg")
  rw [show (bytes "_0.pkg").length = 6 by decide] at this
  rw [this]

theorem normalizeURL_other (u : GoString) (h1 : ¬ bytes "_sc.pkg" <:+ u)
    (h2 : ¬ bytes "-DP.pkg" <:+ u) (h3 : ¬ bytes "_0.pkg" <:+ u) : normalizeURL u = u := by
  rw [← hasSuffix_iff, Bool.not_eq_true] at h1 h2 h3
  unfold normalizeURL
  rw [h1, h2, h3]
  simp

/-- C8. `normalizeURL` replaces a trailing `_sc.pkg`, `-DP.pkg` or `_0.pkg` by `.json`
(exactly that suffix is removed), and returns every other URL unchanged. -/
theorem normalizeURL_result (u : GoString) :
    (∀ p, u = p ++ bytes "_sc.pkg" → normalizeURL u = p ++ bytes ".json") ∧
    (∀ p, u = p ++ bytes "-DP.pkg" → normalizeURL u = p ++ bytes ".json") ∧
    (∀ p, u = p ++ bytes "_0.pkg" → normalizeURL u = p ++ bytes ".json") ∧
    (¬ bytes "_sc.pkg" <:+ u → ¬ bytes "-DP.pkg" <:+ u → ¬ bytes "_0.pkg" <:+ u →
      normalizeURL u = u) := by
  refine ⟨?_, ?_, ?_, normalizeURL_other u⟩
  · rintro p rfl
    exact normalizeURL_sc p
  · rintro p rfl
    exact normalizeURL_dp p
  · rintro p rfl
    exact normalizeURL_0 p

/-- C9. `normalizeURL` is idempotent, and a URL that ends in none of the three
package suffixes is a fixed point. -/
theorem normalizeURL_idempotent (u : GoString) :
    normalizeURL (normalizeURL u) = normalizeURL u ∧
    (¬ bytes "_sc.pkg" <:+ u → ¬ bytes "-DP.pkg" <:+ u → ¬ bytes "_0.pkg" <:+ u →
      normalizeURL u = u) := by
  refine ⟨?_, normalizeURL_other u⟩
  by_cases h1 : bytes "_sc.pkg" <:+ u
  · obtain ⟨p, rfl⟩ := h1
    rw [normalizeURL_sc, normalizeURL_json]
  by_cases h2 : bytes "-DP.pkg" <:+ u
  · obtain ⟨p, rfl⟩ := h2
    rw [normalizeURL_dp, normalizeURL_json]
  by_cases h3 : bytes "_0.pkg" <:+ u
  · obtain ⟨p, rfl⟩ := h3
    rw [normalizeURL_0, normalizeURL_json]
  rw [normalizeURL_other u h1 h2 h3, normalizeURL_other u h1 h2 h3]

/-! ## The read loop of `fetchPiece` -/

theorem wrap64_add_wrap64 (a b : Int) : wrap64 (wrap64 a + b) = wrap64 (a + b) := by
  unfold wrap64
  omega

theorem wrap64_of_range (a : Int) (h0 : -(2 ^ 63) ≤ a) (h1 : a < 2 ^ 63) : wrap64 a = a := by
  unfold wrap64
  omega

theorem write_at_end (f : File) (b : List UInt8) (h : f.pos = f.data.length) :
    (f.write b).data = f.data ++ b ∧ (f.write b).pos = (f.write b).data.length := by
  unfold File.write
  simp [h]

theorem inv_init : Inv State.init := by
  unfold Inv State.init wrap64
  simp

theorem quiet_nil : Quiet [] := by
  intro e he
  simp at he

theorem quiet_append {a b : List Event} (ha : Quiet a) (hb : Quiet b) : Quiet (a ++ b) := by
  intro e he
  rcases List.mem_append.mp he with h | h
  · exact ha e h
  · exact hb e h

theorem fetchedURLs_quiet {evs : List Event} (h : Quiet evs) : fetchedURLs evs = [] := by
  unfold fetchedURLs
  rw [List.filterMap_eq_nil_iff]
  intro e he
  obtain ⟨pct, rfl⟩ := h e he
  rfl

theorem warnings_quiet {evs : List Event} (h : Quiet evs) : warnings evs = [] := by
  unfold warnings
  rw [List.filter_eq_nil_iff]
  intro e he
  obtain ⟨pct, rfl⟩ := h e he
  simp [Event.isWarning]

theorem advance_refl (s : State) : Advance s s [] [] :=
  ⟨by simp, by simp⟩

theorem advance_trans {s t u : State} {a b : List UInt8} {x y : List Event}
    (h1 : Advance s t a x) (h2 : Advance t u b y) : Advance s u (a ++ b) (x ++ y) :=
  ⟨by rw [h2.data, h1.data, List.append_assoc], by rw [h2.trace, h1.trace, List.append_assoc]⟩

theorem advance_emit {s t : State} {a : List UInt8} {x : List Event} (h : Advance s t a x)
    (evs : List Event) : Advance s (t.emit evs) a (x ++ evs) :=
  ⟨h.data, by simp [State.emit, h.trace]⟩

theorem inv_emit {s : State} (h : Inv s) (evs : List Event) : Inv (s.emit evs) := h

theorem inv_write (s : State) (b : List UInt8) (h : Inv s) :
    Inv { s with file := s.file.write b, totalBytes := wrap64 (s.totalBytes + b.length) } := by
  obtain ⟨hp, ht⟩ := h
  obtain ⟨hd, hq⟩ := write_at_end s.file b hp
  refine ⟨hq, ?_⟩
  simp only [hd, ht, wrap64_add_wrap64, List.length_append, Nat.cast_add]

/-- Every outcome of `onChunk` appends to the file and prints progress lines only. -/
theorem onChunk_any (env : Env) (filesize : Int) (s : State) (buf : List UInt8) (h : Inv s) :
    ∃ added evs, Advance s (onChunk env filesize s buf).state added evs ∧ Quiet evs := by
  unfold onChunk
  split
  · exact ⟨[], [], advance_refl s, quiet_nil⟩
  · split
    · rename_i k _
      exact ⟨buf.take k, [], ⟨by simp [Res.state, (write_at_end s.file (buf.take k) h.1).1],
        by simp [Res.state]⟩, quiet_nil⟩
    · split
      · exact ⟨buf, [], ⟨by simp [Res.state, (write_at_end s.file buf h.1).1],
          by simp [Res.state]⟩, quiet_nil⟩
      · refine ⟨buf, [_], ⟨by simp [Res.state, State.emit, (write_at_end s.file buf h.1).1],
          by simp [Res.state, State.emit]; rfl⟩, ?_⟩
        intro e he
        simp only [List.mem_singleton] at he
        exact ⟨_, he⟩

/-- A normal return of `onChunk` has appended the whole buffer. -/
theorem onChunk_ok {env : Env} {filesize : Int} {s t : State} {buf : List UInt8} {u : Unit}
    (h : Inv s) (hr : onChunk env filesize s buf = .ok t u) :
    Inv t ∧ ∃ evs, Advance s t buf evs ∧ Quiet evs := by
  unfold onChunk at hr
  split at hr
  · rename_i hb
    have hb0 : buf = [] := List.length_eq_zero.mp hb
    cases hr
    exact ⟨h, [], by rw [hb0]; exact advance_refl s, quiet_nil⟩
  · split at hr
    · cases hr
    · split at hr
      · cases hr
      · cases hr
        refine ⟨inv_emit (inv_write s buf h) _, [_],
          ⟨by simp [State.emit, (write_at_end s.file buf h.1).1], by simp [State.emit]; rfl⟩, ?_⟩
        intro e he
        simp only [List.mem_singleton] at he
        exact ⟨_, he⟩

/-- Without write faults and with a non-zero `filesize`, `onChunk` returns normally. -/
theorem onChunk_total (env : Env) (filesize : Int) (s : State) (buf : List UInt8)
    (hw : ∀ len n, env.writeFault len n = none) (hf : filesize ≠ 0) :
    ∃ t, onChunk env filesize s buf = .ok t () := by
  unfold onChunk
  split
  · exact ⟨_, rfl⟩
  · rw [hw]
    simp only [if_neg hf]
    exact ⟨_, rfl⟩

theorem readLoop_any (env : Env) (filesize : Int) (reads : List (List UInt8)) :
    ∀ (s : State) (hashed : List UInt8), Inv s →
      ∃ added evs, Advance s (readLoop env filesize reads s hashed).state added evs ∧ Quiet evs := by
  induction reads with
  | nil =>
    intro s hashed _
    exact ⟨[], [], advance_refl s, quiet_nil⟩
  | cons buf rest ih =>
    intro s hashed h
    obtain ⟨a1, e1, h1, q1⟩ := onChunk_any env filesize s buf h
    unfold readLoop
    cases hc : onChunk env filesize s buf with
    | ok t u =>
      obtain ⟨ht, _⟩ := onChunk_ok h hc
      rw [hc] at h1
      obtain ⟨a2, e2, h2, q2⟩ := ih t (hashed ++ buf) ht
      exact ⟨a1 ++ a2, e1 ++ e2, advance_trans h1 h2, quiet_append q1 q2⟩
    | err t =>
      rw [hc] at h1
      exact ⟨a1, e1, h1, q1⟩
    | panic t =>
      rw [hc] at h1
      exact ⟨a1, e1, h1, q1⟩

theorem readLoop_ok (env : Env) (filesize : Int) (reads : List (List UInt8)) :
    ∀ (s t : State) (hashed out : List UInt8), Inv s →
      readLoop env filesize reads s hashed = .ok t out →
      Inv t ∧ out = hashed ++ reads.flatten ∧
        ∃ evs, Advance s t reads.flatten evs ∧ Quiet evs := by
  induction reads with
  | nil =>
    intro s t hashed out h hr
    unfold readLoop at hr
    cases hr
    exact ⟨h, by simp, [], advance_refl s, quiet_nil⟩
  | cons buf rest ih =>
    intro s t hashed out h hr
    unfold readLoop at hr
    cases hc : onChunk env filesize s buf with
    | ok t1 u =>
      rw [hc] at hr
      obtain ⟨ht1, e1, h1, q1⟩ := onChunk_ok h hc
      obtain ⟨ht, ho, e2, h2, q2⟩ := ih t1 t (hashed ++ buf) out ht1 hr
      refine ⟨ht, by simp [ho], e1 ++ e2, ?_, quiet_append q1 q2⟩
      have := advance_trans h1 h2
      simpa using this
    | err t1 =>
      rw [hc] at hr
      cases hr
    | panic t1 =>
      rw [hc] at hr
      cases hr

theorem readLoop_total (env : Env) (filesize : Int) (reads : List (List UInt8))
    (hw : ∀ len n, env.writeFault len n = none) (hf : filesize ≠ 0) :
    ∀ (s : State) (hashed : List UInt8),
      ∃ t, readLoop env filesize reads s hashed = .ok t (hashed ++ reads.flatten) := by
  induction reads with
  | nil =>
    intro s hashed
    exact ⟨s, by simp [readLoop]⟩
  | cons buf rest ih =>
    intro s hashed
    obtain ⟨t1, h1⟩ := onChunk_total env filesize s buf hw hf
    obtain ⟨t, h2⟩ := ih t1 (hashed ++ buf)
    refine ⟨t, ?_⟩
    unfold readLoop
    rw [h1]
    simpa using h2

/-! ## `fetchPiece` -/

/-- Every outcome of `fetchPiece` records the fetch, appends to the file and
prints progress lines only. -/
theorem fetchPiece_any (lib : Lib) (env : Env) (url : GoString) (filesize : Int) (s : State)
    (h : Inv s) :
    ∃ added evs, Advance s (fetchPiece lib env url filesize s).state added (.fetch url :: evs) ∧
      Quiet evs := by
  have h0 : Advance s (s.emit [.fetch url]) [] [.fetch url] := advance_emit (advance_refl s) _
  have hi0 : Inv (s.emit [.fetch url]) := inv_emit h _
  unfold fetchPiece
  cases hp : env.piece url with
  | buildError => exact ⟨[], [], h0, quiet_nil⟩
  | doError => exact ⟨[], [], h0, quiet_nil⟩
  | stream st =>
    obtain ⟨a1, e1, h1, q1⟩ := readLoop_any env filesize st.reads (s.emit [.fetch url]) [] hi0
    simp only
    cases hr : readLoop env filesize st.reads (s.emit [.fetch url]) [] with
    | err t =>
      rw [hr] at h1
      exact ⟨_, e1, by simpa using advance_trans h0 h1, q1⟩
    | panic t =>
      rw [hr] at h1
      exact ⟨_, e1, by simpa using advance_trans h0 h1, q1⟩
    | ok t hashed =>
      rw [hr] at h1
      obtain ⟨ht, _⟩ := readLoop_ok env filesize st.reads _ t [] hashed hi0 hr
      obtain ⟨a2, e2, h2, q2⟩ := onChunk_any env filesize t st.last ht
      have h3 := advance_trans (advance_trans h0 h1) h2
      simp only
      cases hc : onChunk env filesize t st.last with
      | err t2 =>
        rw [hc] at h3
        exact ⟨_, e1 ++ e2, by simpa using h3, quiet_append q1 q2⟩
      | panic t2 =>
        rw [hc] at h3
        exact ⟨_, e1 ++ e2, by simpa using h3, quiet_append q1 q2⟩
      | ok t2 u =>
        rw [hc] at h3
        simp only
        split
        · exact ⟨_, e1 ++ e2, by simpa using h3, quiet_append q1 q2⟩
        · exact ⟨_, e1 ++ e2, by simpa using h3, quiet_append q1 q2⟩

/-- A normal return of `fetchPiece`: the server answered with a stream read to
`io.EOF`, the whole body was appended, and the digests are those of the body. -/
theorem fetchPiece_ok {lib : Lib} {env : Env} {url : GoString} {filesize : Int} {s t : State}
    {hashes : GoString × GoString} (h : Inv s)
    (hr : fetchPiece lib env url filesize s = .ok t hashes) :
    ∃ st evs, env.piece url = .stream st ∧ st.eof = true ∧
      hashes = (lib.sha1hex st.body, lib.sha256hex st.body) ∧ Inv t ∧
      Advance s t st.body (.fetch url :: evs) ∧ Quiet evs := by
  have h0 : Advance s (s.emit [.fetch url]) [] [.fetch url] := advance_emit (advance_refl s) _
  have hi0 : Inv (s.emit [.fetch url]) := inv_emit h _
  unfold fetchPiece at hr
  cases hp : env.piece url with
  | buildError => rw [hp] at hr; cases hr
  | doError => rw [hp] at hr; cases hr
  | stream st =>
    rw [hp] at hr
    simp only at hr
    cases hl : readLoop env filesize st.reads (s.emit [.fetch url]) [] with
    | err t1 => rw [hl] at hr; cases hr
    | panic t1 => rw [hl] at hr; cases hr
    | ok t1 hashed =>
      rw [hl] at hr
      simp only at hr
      obtain ⟨ht1, ho, e1, h1, q1⟩ := readLoop_ok env filesize st.reads _ t1 [] hashed hi0 hl
      cases hc : onChunk env filesize t1 st.last with
      | err t2 => rw [hc] at hr; cases hr
      | panic t2 => rw [hc] at hr; cases hr
      | ok t2 u =>
        rw [hc] at hr
        simp only at hr
        obtain ⟨ht2, e2, h2, q2⟩ := onChunk_ok ht1 hc
        split at hr
        · rename_i heof
          cases hr
          refine ⟨st, e1 ++ e2, rfl, heof, ?_, ht2, ?_, quiet_append q1 q2⟩
          · simp [ho, Stream.body]
          · have h3 := advance_trans (advance_trans h0 h1) h2
            simpa [Stream.body] using h3
        · cases hr

/-- Without write faults and with a non-zero `filesize`, a stream read to
`io.EOF` makes `fetchPiece` return the digests of its body. -/
theorem fetchPiece_total (lib : Lib) (env : Env) (url : GoString) (filesize : Int) (s : State)
    (hw : ∀ len n, env.writeFault len n = none) (hf : filesize ≠ 0) (st : Stream)
    (hp : env.piece url = .stream st) (heof : st.eof = true) :
    ∃ t, fetchPiece lib env url filesize s
      = .ok t (lib.sha1hex st.body, lib.sha256hex st.body) := by
  obtain ⟨t1, h1⟩ := readLoop_total env filesize st.reads hw hf (s.emit [.fetch url]) []
  obtain ⟨t2, h2⟩ := onChunk_total env filesize t1 st.last hw hf
  refine ⟨t2, ?_⟩
  unfold fetchPiece
  rw [hp]
  simp only
  rw [h1]
  simp only
  rw [h2]
  simp [heof, Stream.body]

/-! ## One iteration of the loop -/

theorem seekEnd_of_ok (env : Env) (s : State) (h : env.seekFails s.seeks = false) :
    seekEnd env s = .ok ⟨⟨s.file.data, s.file.data.length⟩, s.totalBytes, s.seeks + 1, s.trace⟩
      s.file.data.length := by
  unfold seekEnd
  simp [h]

theorem seekEnd_ok {env : Env} {s t : State} {off : Int} (h : Inv s)
    (hr : seekEnd env s = .ok t off) :
    env.seekFails s.seeks = false ∧ Inv t ∧ off = s.file.data.length ∧ Advance s t [] [] := by
  unfold seekEnd at hr
  split at hr
  · cases hr
  · rename_i hf
    cases hr
    exact ⟨by simpa using hf, ⟨rfl, h.2⟩, rfl, by simp, by simp⟩

theorem seekEnd_any (env : Env) (s : State) :
    ∃ evs, Advance s (seekEnd env s).state [] evs ∧ fetchedURLs evs = [] := by
  unfold seekEnd
  split
  · exact ⟨[.errSeek], ⟨by simp [Res.state, State.emit], by simp [Res.state, State.emit]⟩, rfl⟩
  · exact ⟨[], ⟨by simp [Res.state], by simp [Res.state]⟩, rfl⟩

theorem seekEnd_ne_panic (env : Env) (s t : State) : seekEnd env s ≠ .panic t := by
  unfold seekEnd
  split <;> simp

theorem fetchedURLs_append (a b : List Event) :
    fetchedURLs (a ++ b) = fetchedURLs a ++ fetchedURLs b := by
  simp [fetchedURLs]

theorem fetchedURLs_fetch (u : GoString) (evs : List Event) :
    fetchedURLs (.fetch u :: evs) = u :: fetchedURLs evs := by
  simp [fetchedURLs, Event.fetched]

theorem fetchedURLs_offsetCheck (off : Int) (p : Piece) : fetchedURLs (offsetCheck off p) = [] := by
  unfold offsetCheck
  split <;> rfl

theorem fetchedURLs_sizeCheck (off : Int) (p : Piece) : fetchedURLs (sizeCheck off p) = [] := by
  unfold sizeCheck
  split <;> rfl

theorem fetchedURLs_hashCheck (lib : Lib) (p : Piece) (hs : GoString × GoString) :
    fetchedURLs (hashCheck lib p hs) = [] := by
  unfold hashCheck
  split <;> rfl

/-- The events of a completed iteration: offset check, fetch, progress lines,
size check, hash check. -/
theorem pieceStep_ok {lib : Lib} {env : Env} {filesize : Int} {s t : State} {p : Piece} {u : Unit}
    (h : Inv s) (hr : pieceStep lib env filesize s p = .ok t u) :
    ∃ st evs, env.piece p.url = .stream st ∧ st.eof = true ∧ Inv t ∧ Quiet evs ∧
      env.seekFails s.seeks = false ∧
      Advance s t st.body
        (offsetCheck s.file.data.length p ++ .fetch p.url :: evs
          ++ sizeCheck (s.file.data.length + st.body.length : Nat) p
          ++ hashCheck lib p (lib.sha1hex st.body, lib.sha256hex st.body)) := by
  unfold pieceStep at hr
  cases h1 : seekEnd env s with
  | err s1 => rw [h1] at hr; cases hr
  | panic s1 => rw [h1] at hr; cases hr
  | ok s1 off =>
    rw [h1] at hr
    simp only at hr
    obtain ⟨hsk, hi1, rfl, a1⟩ := seekEnd_ok h h1
    cases h2 : fetchPiece lib env p.url filesize (s1.emit (offsetCheck s.file.data.length p)) with
    | err s2 => rw [h2] at hr; cases hr
    | panic s2 => rw [h2] at hr; cases hr
    | ok s2 hashes =>
      rw [h2] at hr
      simp only at hr
      obtain ⟨st, evs, hp, heof, rfl, hi2, a2, q⟩ := fetchPiece_ok (inv_emit hi1 _) h2
      cases h3 : seekEnd env s2 with
      | err s3 => rw [h3] at hr; cases hr
      | panic s3 => rw [h3] at hr; cases hr
      | ok s3 off2 =>
        rw [h3] at hr
        simp only at hr
        cases hr
        obtain ⟨_, hi3, rfl, a3⟩ := seekEnd_ok hi2 h3
        refine ⟨st, evs, hp, heof, inv_emit (inv_emit hi3 _) _, q, hsk, ?_⟩
        have a := advance_emit (advance_emit
          (advance_trans (advance_trans (advance_emit a1 (offsetCheck s.file.data.length p)) a2) a3)
          (sizeCheck s2.file.data.length p)) (hashCheck lib p (lib.sha1hex st.body, lib.sha256hex st.body))
        have hlen : s2.file.data.length = s.file.data.length + st.body.length := by
          have := (advance_trans (advance_emit a1 (offsetCheck s.file.data.length p)) a2).data
          rw [this]
          simp
        rw [hlen] at a ⊢
        simpa using a

/-- Every outcome of an iteration appends to the file and calls `fetchPiece` at
most once, for the piece's URL. -/
theorem pieceStep_any (lib : Lib) (env : Env) (filesize : Int) (s : State) (p : Piece)
    (h : Inv s) :
    ∃ added evs, Advance s (pieceStep lib env filesize s p).state added evs ∧
      (fetchedURLs evs = [] ∨ fetchedURLs evs = [p.url]) := by
  unfold pieceStep
  obtain ⟨e1, a1, f1⟩ := seekEnd_any env s
  cases h1 : seekEnd env s with
  | err s1 =>
    rw [h1] at a1
    exact ⟨[], e1, a1, .inl f1⟩
  | panic s1 =>
    rw [h1] at a1
    exact ⟨[], e1, a1, .inl f1⟩
  | ok s1 off =>
    simp only
    obtain ⟨_, hi1, rfl, b1⟩ := seekEnd_ok h h1
    obtain ⟨added, evs, a2, q⟩ := fetchPiece_any lib env p.url filesize
      (s1.emit (offsetCheck s.file.data.length p)) (inv_emit hi1 _)
    have a12 := advance_trans (advance_emit b1 (offsetCheck s.file.data.length p)) a2
    have f12 : fetchedURLs ([] ++ offsetCheck (s.file.data.length) p ++ Event.fetch p.url :: evs)
        = [p.url] := by
      simp [fetchedURLs_append, fetchedURLs_fetch, fetchedURLs_offsetCheck, fetchedURLs_quiet q]
    cases h2 : fetchPiece lib env p.url filesize (s1.emit (offsetCheck s.file.data.length p)) with
    | err s2 =>
      rw [h2] at a12
      refine ⟨_, _, advance_emit a12 [.errPiece], .inr ?_⟩
      rw [fetchedURLs_append, f12]
      rfl
    | panic s2 =>
      rw [h2] at a12
      exact ⟨_, _, a12, .inr f12⟩
    | ok s2 hashes =>
      rw [h2] at a12
      simp only
      obtain ⟨_, _, _, _, _, hi2, _, _⟩ := fetchPiece_ok (inv_emit hi1 _) h2
      obtain ⟨e3, a3, f3⟩ := seekEnd_any env s2
      cases h3 : seekEnd env s2 with
      | err s3 =>
        rw [h3] at a3
        refine ⟨_, _, advance_trans a12 a3, .inr ?_⟩
        rw [fetchedURLs_append, f12, f3]
        rfl
      | panic s3 => exact absurd h3 (seekEnd_ne_panic env s2 s3)
      | ok s3 off2 =>
        rw [h3] at a3
        refine ⟨_, _, advance_emit (advance_emit (advance_trans a12 a3) (sizeCheck off2 p))
          (hashCheck lib p hashes), .inr ?_⟩
        rw [fetchedURLs_append, fetchedURLs_append, fetchedURLs_append, f12, f3,
          fetchedURLs_sizeCheck, fetchedURLs_hashCheck]
        rfl

/-- Without faults and with a non-zero `filesize`, an iteration whose URL serves a
body read to `io.EOF` completes. -/
theorem pieceStep_total (lib : Lib) (env : Env) (filesize : Int) (s : State) (p : Piece)
    (hn : env.NoFault) (hf : filesize ≠ 0) (st : Stream)
    (hp : env.piece p.url = .stream st) (heof : st.eof = true) :
    ∃ t, pieceStep lib env filesize s p = .ok t () := by
  unfold pieceStep
  rw [seekEnd_of_ok env s (hn.2 _)]
  simp only
  obtain ⟨t, ht⟩ := fetchPiece_total lib env p.url filesize
    (State.emit ⟨⟨s.file.data, s.file.data.length⟩, s.totalBytes, s.seeks + 1, s.trace⟩
      (offsetCheck s.file.data.length p)) hn.1 hf st hp heof
  rw [ht]
  simp only
  rw [seekEnd_of_ok env t (hn.2 _)]
  exact ⟨_, rfl⟩

/-! ## The loop -/

theorem loop_append (lib : Lib) (env : Env) (filesize : Int) (a b : List Piece) :
    ∀ s : State, loop lib env filesize (a ++ b) s =
      match loop lib env filesize a s with
      | .ok s1 _ => loop lib env filesize b s1
      | .err s1 => .err s1
      | .panic s1 => .panic s1 := by
  induction a with
  | nil =>
    intro s
    simp [loop]
  | cons p rest ih =>
    intro s
    simp only [List.cons_append, loop]
    cases pieceStep lib env filesize s p with
    | ok s1 u => exact ih s1
    | err s1 => rfl
    | panic s1 => rfl

theorem bodyOf_of_stream {env : Env} {url : GoString} {st : Stream}
    (h : env.piece url = .stream st) : env.bodyOf url = st.body := by
  simp [Env.bodyOf, h]

/-- A completed loop has fetched every piece in order and appended every body. -/
theorem loop_ok (lib : Lib) (env : Env) (filesize : Int) (ps : List Piece) :
    ∀ (s t : State) (u : Unit), Inv s → loop lib env filesize ps s = .ok t u →
      Inv t ∧ t.file.data = s.file.data ++ (ps.map (fun p => env.bodyOf p.url)).flatten ∧
      fetchedURLs t.trace = fetchedURLs s.trace ++ ps.map (·.url) ∧
      ∀ p ∈ ps, env.Serves p.url (env.bodyOf p.url) := by
  induction ps with
  | nil =>
    intro s t u h hr
    simp only [loop] at hr
    cases hr
    simp [h]
  | cons p rest ih =>
    intro s t u h hr
    simp only [loop] at hr
    cases h1 : pieceStep lib env filesize s p with
    | err s1 => rw [h1] at hr; cases hr
    | panic s1 => rw [h1] at hr; cases hr
    | ok s1 u1 =>
      rw [h1] at hr
      simp only at hr
      obtain ⟨st, evs, hp, heof, hi1, q, _, a⟩ := pieceStep_ok h h1
      obtain ⟨hit, hd, hf, hs⟩ := ih s1 t u hi1 hr
      refine ⟨hit, ?_, ?_, ?_⟩
      · rw [hd, a.data]
        simp [bodyOf_of_stream hp]
      · rw [hf, a.trace]
        simp [fetchedURLs_append, fetchedURLs_fetch, fetchedURLs_offsetCheck,
          fetchedURLs_sizeCheck, fetchedURLs_hashCheck, fetchedURLs_quiet q]
      · intro x hx
        rcases List.mem_cons.mp hx with rfl | hx
        · exact ⟨st, hp, heof, (bodyOf_of_stream hp).symm⟩
        · exact hs x hx

/-- Whatever the outcome, the loop only appends to the file, and the pieces it
has called `fetchPiece` for are an initial segment of the list, in order. -/
theorem loop_any (lib : Lib) (env : Env) (filesize : Int) (ps : List Piece) :
    ∀ s : State, Inv s →
      ∃ added evs, Advance s (loop lib env filesize ps s).state added evs ∧
        fetchedURLs evs <+: ps.map (·.url) := by
  induction ps with
  | nil =>
    intro s _
    exact ⟨[], [], advance_refl s, by simp [fetchedURLs]⟩
  | cons p rest ih =>
    intro s h
    obtain ⟨a1, e1, adv1, f1⟩ := pieceStep_any lib env filesize s p h
    simp only [loop]
    cases h1 : pieceStep lib env filesize s p with
    | err s1 =>
      rw [h1] at adv1
      refine ⟨a1, e1, adv1, ?_⟩
      rcases f1 with f | f <;> rw [f] <;> simp
    | panic s1 =>
      rw [h1] at adv1
      refine ⟨a1, e1, adv1, ?_⟩
      rcases f1 with f | f <;> rw [f] <;> simp
    | ok s1 u1 =>
      obtain ⟨st, evs, hp, heof, hi1, q, _, a⟩ := pieceStep_ok h h1
      obtain ⟨a2, e2, adv2, f2⟩ := ih s1 hi1
      refine ⟨_, _, advance_trans a adv2, ?_⟩
      simp only [fetchedURLs_append, fetchedURLs_fetch, fetchedURLs_offsetCheck,
        fetchedURLs_sizeCheck, fetchedURLs_hashCheck, fetchedURLs_quiet q, List.nil_append,
        List.append_nil, List.map_cons, List.cons_append]
      exact (List.prefix_cons_inj p.url).mpr f2

/-- Without faults and with a non-zero `filesize`, the loop completes when every
piece URL serves a body read to `io.EOF`. -/
theorem loop_total (lib : Lib) (env : Env) (filesize : Int) (hn : env.NoFault)
    (hf : filesize ≠ 0) (ps : List Piece) :
    ∀ s : State, (∀ p ∈ ps, ∃ body, env.Serves p.url body) →
      ∃ t, loop lib env filesize ps s = .ok t () := by
  induction ps with
  | nil =>
    intro s _
    exact ⟨s, rfl⟩
  | cons p rest ih =>
    intro s hs
    obtain ⟨body, st, hp, heof, _⟩ := hs p (List.mem_cons_self _ _)
    obtain ⟨s1, h1⟩ := pieceStep_total lib env filesize s p hn hf st hp heof
    obtain ⟨t, h2⟩ := ih s1 (fun x hx => hs x (List.mem_cons_of_mem _ hx))
    refine ⟨t, ?_⟩
    simp only [loop]
    rw [h1]
    exact h2

/-! ## Sorting -/

theorem filterMap_range_getElem? {α : Type} (l : List α) :
    (List.range l.length).filterMap (fun i => l[i]?) = l := by
  induction l using List.reverseRecOn with
  | nil => rfl
  | append_singleton l a ih =>
    rw [List.length_append, List.length_singleton, List.range_succ, List.filterMap_append]
    have h1 : (List.range l.length).filterMap (fun i => (l ++ [a])[i]?)
        = (List.range l.length).filterMap (fun i => l[i]?) := by
      apply List.filterMap_congr
      intro i hi
      rw [List.getElem?_append_left (List.mem_range.mp hi)]
    rw [h1, ih]
    simp

/-- With a sound library, `sort.Slice` permutes the pieces. -/
theorem sortPieces_perm {lib : Lib} (hl : lib.Sound) (ps : List Piece) :
    (sortPieces lib ps).Perm ps := by
  unfold sortPieces
  have h := (hl.sort_perm (ps.map (·.fileOffset))).filterMap (fun i => ps[i]?)
  rw [List.length_map, filterMap_range_getElem?] at h
  exact h

theorem map_offset_filterMap (ps : List Piece) (l : List Nat) (h : ∀ i ∈ l, i < ps.length) :
    (l.filterMap (fun i => ps[i]?)).map (·.fileOffset)
      = l.map (fun i => (ps.map (·.fileOffset)).getD i 0) := by
  induction l with
  | nil => rfl
  | cons i rest ih =>
    have hi : i < ps.length := h i (List.mem_cons_self _ _)
    have hr := ih (fun j hj => h j (List.mem_cons_of_mem _ hj))
    simp only [List.filterMap_cons, List.getElem?_eq_getElem hi, List.map_cons, hr]
    simp [List.getD, List.getElem?_eq_getElem hi]

/-- With a sound library, the pieces come out of `sort.Slice` in non-decreasing
order of `fileOffset`. -/
theorem sortPieces_sorted {lib : Lib} (hl : lib.Sound) (ps : List Piece) :
    (sortPieces lib ps).Sorted (fun a b => a.fileOffset ≤ b.fileOffset) := by
  have hlt : ∀ i ∈ lib.sortOrder (ps.map (·.fileOffset)), i < ps.length := by
    intro i hi
    have := (hl.sort_perm (ps.map (·.fileOffset))).mem_iff.mp hi
    simpa using this
  have h := hl.sort_sorted (ps.map (·.fileOffset))
  rw [← map_offset_filterMap ps _ hlt] at h
  exact List.pairwise_map.mp h

/-- Pieces with pairwise distinct offsets have one sorted arrangement only. -/
theorem sorted_unique {a b : List Piece} (hp : a.Perm b)
    (hn : (a.map (·.fileOffset)).Nodup)
    (ha : a.Sorted (fun x y => x.fileOffset ≤ y.fileOffset))
    (hb : b.Sorted (fun x y => x.fileOffset ≤ y.fileOffset)) : a = b := by
  have hnb : (b.map (·.fileOffset)).Nodup := ((hp.map (·.fileOffset)).nodup_iff).mp hn
  have strict : ∀ l : List Piece, (l.map (·.fileOffset)).Nodup →
      l.Sorted (fun x y => x.fileOffset ≤ y.fileOffset) →
      l.Pairwise (fun x y => x.fileOffset < y.fileOffset) := by
    intro l hnd hs
    have hne : l.Pairwise (fun x y => x.fileOffset ≠ y.fileOffset) := List.pairwise_map.mp hnd
    exact (List.Pairwise.and hs hne).imp (fun h => lt_of_le_of_ne h.1 h.2)
  haveI : IsAntisymm Piece (fun x y => x.fileOffset < y.fileOffset) :=
    ⟨fun x y h1 h2 => absurd h1 (not_lt.mpr (le_of_lt h2))⟩
  exact List.eq_of_perm_of_sorted hp (strict a hn ha) (strict b hnb hb)

/-- With a sound library, the sorted slice does not depend on the order of the
array when the offsets are pairwise distinct. -/
theorem sortPieces_of_perm {lib : Lib} (hl : lib.Sound) {ps qs : List Piece} (hp : qs.Perm ps)
    (hn : (ps.map (·.fileOffset)).Nodup) : sortPieces lib qs = sortPieces lib ps := by
  have h1 : (sortPieces lib qs).Perm (sortPieces lib ps) :=
    ((sortPieces_perm hl qs).trans hp).trans (sortPieces_perm hl ps).symm
  have hn1 : ((sortPieces lib qs).map (·.fileOffset)).Nodup :=
    ((((sortPieces_perm hl qs).trans hp).map (·.fileOffset)).nodup_iff).mpr hn
  exact sorted_unique h1 hn1 (sortPieces_sorted hl qs) (sortPieces_sorted hl ps)

/-- The reference library is sound. -/
theorem stdLib_sound : stdLib.Sound := by
  refine ⟨?_, ?_, ?_⟩
  · intro s
    simp [stdLib, equalFoldASCII]
  · intro keys
    exact List.perm_insertionSort _ _
  · intro keys
    haveI : IsTotal Nat (fun i j => keys.getD i 0 ≤ keys.getD j 0) :=
      ⟨fun i j => le_total _ _⟩
    haveI : IsTrans Nat (fun i j => keys.getD i 0 ≤ keys.getD j 0) :=
      ⟨fun i j k h1 h2 => le_trans h1 h2⟩
    have h := List.sorted_insertionSort (fun i j => keys.getD i 0 ≤ keys.getD j 0)
      (List.range keys.length)
    exact List.pairwise_map.mpr h

/-! ## Runs without warnings -/

theorem warnings_append (a b : List Event) : warnings (a ++ b) = warnings a ++ warnings b := by
  simp [warnings]

theorem warnings_fetch (u : GoString) (evs : List Event) :
    warnings (.fetch u :: evs) = warnings evs := by
  simp [warnings, Event.isWarning]

theorem chained_le (ps : List Piece) : ∀ start stop, Chained start ps stop → start ≤ stop := by
  induction ps with
  | nil =>
    intro start stop h
    exact le_of_eq h
  | cons p rest ih =>
    intro start stop h
    obtain ⟨_, hpos, hrest⟩ := h
    have := ih _ _ hrest
    omega

theorem chained_offsets (ps : List Piece) :
    ∀ start stop, Chained start ps stop → ∀ p ∈ ps, start ≤ p.fileOffset := by
  induction ps with
  | nil =>
    intro start stop _ p hp
    simp at hp
  | cons q rest ih =>
    intro start stop h p hp
    obtain ⟨hq, hpos, hrest⟩ := h
    rcases List.mem_cons.mp hp with rfl | hp
    · exact le_of_eq hq.symm
    · have := ih _ _ hrest p hp
      omega

/-- A chain of pieces is strictly increasing in `fileOffset`. -/
theorem chained_sorted (ps : List Piece) :
    ∀ start stop, Chained start ps stop →
      ps.Pairwise (fun a b => a.fileOffset < b.fileOffset) := by
  induction ps with
  | nil =>
    intro _ _ _
    exact List.Pairwise.nil
  | cons q rest ih =>
    intro start stop h
    obtain ⟨hq, hpos, hrest⟩ := h
    refine List.Pairwise.cons ?_ (ih _ _ hrest)
    intro p hp
    have := chained_offsets rest _ _ hrest p hp
    omega

/-- With a sound library, `sort.Slice` puts pieces that partition a range into
their chain order. -/
theorem sortPieces_chained {lib : Lib} (hl : lib.Sound) {ps ordered : List Piece}
    {start stop : Int} (hp : ordered.Perm ps) (hc : Chained start ordered stop) :
    sortPieces lib ps = ordered := by
  have hs := chained_sorted ordered start stop hc
  have hn : (ordered.map (·.fileOffset)).Nodup :=
    List.pairwise_map.mpr (hs.imp (fun h => ne_of_lt h))
  have hn2 : ((sortPieces lib ps).map (·.fileOffset)).Nodup :=
    ((((sortPieces_perm hl ps).trans hp.symm).map (·.fileOffset)).nodup_iff).mpr hn
  exact sorted_unique ((sortPieces_perm hl ps).trans hp.symm) hn2 (sortPieces_sorted hl ps)
    (hs.imp (fun h => le_of_lt h))

/-- A completed loop over a chain of pieces whose bodies have the declared sizes
and digests prints no warning and ends at the end of the chain. -/
theorem loop_chained (lib : Lib) (env : Env) (filesize : Int) (hl : lib.Sound) (stop : Int)
    (h64 : stop < 2 ^ 63) (ps : List Piece) :
    ∀ (start : Int) (s t : State) (u : Unit), Inv s → (s.file.data.length : Int) = start →
      Chained start ps stop →
      (∀ p ∈ ps, ∃ body, env.Serves p.url body ∧ (body.length : Int) = p.fileSize ∧
        (lib.sha1hex body = p.hashValue ∨ lib.sha256hex body = p.hashValue)) →
      loop lib env filesize ps s = .ok t u →
      warnings t.trace = warnings s.trace ∧ (t.file.data.length : Int) = stop := by
  induction ps with
  | nil =>
    intro start s t u _ hlen hc _ hr
    simp only [loop] at hr
    cases hr
    exact ⟨rfl, hlen.trans hc⟩
  | cons p rest ih =>
    intro start s t u h hlen hc hs hr
    obtain ⟨hoff, hpos, hrest⟩ := hc
    simp only [loop] at hr
    cases h1 : pieceStep lib env filesize s p with
    | err s1 => rw [h1] at hr; cases hr
    | panic s1 => rw [h1] at hr; cases hr
    | ok s1 u1 =>
      rw [h1] at hr
      simp only at hr
      obtain ⟨st, evs, hp, heof, hi1, q, _, a⟩ := pieceStep_ok h h1
      obtain ⟨body, ⟨st2, hp2, _, hb2⟩, hsize, hhash⟩ := hs p (List.mem_cons_self _ _)
      rw [hp] at hp2
      cases hp2
      subst hb2
      have hlen1 : (s1.file.data.length : Int) = start + p.fileSize := by
        rw [a.data]
        simp [hlen, hsize]
      have hle := chained_le rest _ _ hrest
      have h0 : (0 : Int) ≤ start := by
        rw [← hlen]
        exact Int.natCast_nonneg _
      have hw : wrap64 (p.fileOffset + p.fileSize) = p.fileOffset + p.fileSize :=
        wrap64_of_range _ (by omega) (by omega)
      have c1 : offsetCheck s.file.data.length p = [] := by
        simp [offsetCheck, hlen, hoff]
      have c2 : sizeCheck (s.file.data.length + st.body.length : Nat) p = [] := by
        unfold sizeCheck
        rw [hw, if_neg]
        rw [not_not]
        push_cast
        omega
      have c3 : hashCheck lib p (lib.sha1hex st.body, lib.sha256hex st.body) = [] := by
        unfold hashCheck
        rcases hhash with e | e
        · simp [e, hl.fold_refl]
        · simp [e, hl.fold_refl]
      obtain ⟨hw2, hl2⟩ := ih (start + p.fileSize) s1 t u hi1 hlen1 hrest
        (fun x hx => hs x (List.mem_cons_of_mem _ hx)) hr
      refine ⟨?_, hl2⟩
      rw [hw2, a.trace, c1, c2, c3]
      simp [warnings_append, warnings_fetch, warnings_quiet q]

/-- C1. Round trip: when the pieces of the manifest, arranged as `ordered`, chain
from 0 to `originalFileSize` (they partition the range), every piece URL serves
a body of the declared size whose SHA-1 or SHA-256 hex digest is the declared
hash, and nothing faults, the assembly completes, the output file is the
concatenation of the bodies in that ascending-offset order, it has
`originalFileSize` bytes, and no `WARNING` line is printed. -/
theorem roundtrip_assembly (lib : Lib) (env : Env) (m : Manifest) (ordered : List Piece)
    (hl : lib.Sound) (hn : env.NoFault)
    (hperm : ordered.Perm m.pieces) (hchain : Chained 0 ordered m.originalFileSize)
    (hpos : 0 < m.originalFileSize) (h64 : m.originalFileSize < 2 ^ 63)
    (hserve : ∀ p ∈ m.pieces, ∃ body, env.Serves p.url body ∧
      (body.length : Int) = p.fileSize ∧
      (lib.sha1hex body = p.hashValue ∨ lib.sha256hex body = p.hashValue)) :
    ∃ s, assemble lib env m = .ok s () ∧
      s.file.data = (ordered.map (fun p => env.bodyOf p.url)).flatten ∧
      (s.file.data.length : Int) = m.originalFileSize ∧
      warnings s.trace = [] := by
  have hsort : sortPieces lib m.pieces = ordered := sortPieces_chained hl hperm hchain
  have hserve2 : ∀ p ∈ ordered, ∃ body, env.Serves p.url body ∧
      (body.length : Int) = p.fileSize ∧
      (lib.sha1hex body = p.hashValue ∨ lib.sha256hex body = p.hashValue) :=
    fun p hp => hserve p (hperm.mem_iff.mp hp)
  obtain ⟨t, ht⟩ := loop_total lib env m.originalFileSize hn (ne_of_gt hpos) ordered State.init
    (fun p hp => (hserve2 p hp).imp (fun _ h => h.1))
  obtain ⟨hit, hd, _, _⟩ := loop_ok lib env m.originalFileSize ordered State.init t () inv_init ht
  obtain ⟨hw, hlen⟩ := loop_chained lib env m.originalFileSize hl m.originalFileSize h64 ordered
    0 State.init t () inv_init rfl hchain hserve2 ht
  have hasm : assemble lib env m = .ok
      ((State.emit ⟨⟨t.file.data, t.file.data.length⟩, t.totalBytes, t.seeks + 1, t.trace⟩
        (fileSizeCheck t.file.data.length m)).emit [.completed t.file.data.length]) () := by
    unfold assemble
    rw [hsort, ht]
    simp only [finalize]
    rw [seekEnd_of_ok env t (hn.2 _)]
  refine ⟨_, hasm, ?_, ?_, ?_⟩
  · simpa [State.emit, State.init] using hd
  · simpa [State.emit] using hlen
  · simp only [State.emit, warnings_append, hw, fileSizeCheck, hlen]
    simp [warnings, State.init, Event.isWarning]

set_option maxRecDepth 100000 in
/-- The end-to-end scenario of the specification, with the pieces out of order in
the manifest: the output file is `abcdef`, 6 bytes, and no warning is printed. -/
theorem roundtrip_assembly_witness :
    ∃ s, assemble stdLib (.ofServer demoServer) demoManifest = .ok s () ∧
      s.file.data = bytes "abcdef" ∧ (s.file.data.length : Int) = 6 ∧ warnings s.trace = [] :=
  roundtrip_assembly stdLib (.ofServer demoServer) demoManifest [pieceA, pieceB] stdLib_sound
    ⟨fun _ _ => rfl, fun _ => rfl⟩ (List.Perm.swap _ _ _)
    ⟨rfl, by decide, rfl, by decide, rfl⟩ (by decide) (by decide)
    (by
      intro p hp
      simp only [demoManifest, List.mem_cons, List.mem_singleton, List.not_mem_nil, or_false] at hp
      rcases hp with rfl | rfl
      · exact ⟨bytes "def", ⟨⟨[], bytes "def", true⟩, rfl, rfl, rfl⟩, rfl, .inr (by decide)⟩
      · exact ⟨bytes "abc", ⟨⟨[], bytes "abc", true⟩, rfl, rfl, rfl⟩, rfl, .inl (by decide)⟩)

/-! ## Invariant, abort, hash check, order -/

theorem loop_ok_of_append {lib : Lib} {env : Env} {filesize : Int} {a b : List Piece}
    {s t : State} {u : Unit} (h : loop lib env filesize (a ++ b) s = .ok t u) :
    ∃ s1, loop lib env filesize a s = .ok s1 () ∧ loop lib env filesize b s1 = .ok t u := by
  rw [loop_append] at h
  cases ha : loop lib env filesize a s with
  | ok s1 u1 =>
    rw [ha] at h
    exact ⟨s1, rfl, h⟩
  | err s1 => rw [ha] at h; cases h
  | panic s1 => rw [ha] at h; cases h

theorem length_flatten_bodies (env : Env) (ps : List Piece) :
    ((ps.map (fun p => env.bodyOf p.url)).flatten).length
      = (ps.map (fun p => (env.bodyOf p.url).length)).sum := by
  induction ps with
  | nil => rfl
  | cons p rest ih => simp [ih]

theorem sum_sizes_of_served (env : Env) (ps : List Piece)
    (hall : ∀ p ∈ ps, ((env.bodyOf p.url).length : Int) = p.fileSize) :
    (((ps.map (fun p => (env.bodyOf p.url).length)).sum : Nat) : Int)
      = (ps.map (·.fileSize)).sum := by
  induction ps with
  | nil => rfl
  | cons p l ih =>
    have h1 := hall p (List.mem_cons_self _ _)
    have h2 := ih (fun x hx => hall x (List.mem_cons_of_mem _ hx))
    simp only [List.map_cons, List.sum_cons, Nat.cast_add, h1, h2]

/-- C7. File-length invariant: in the state `s` in which the run, having
completed the pieces `pre` of the sorted slice, starts the next iteration (or the
finalization, when no piece is left), the file position is at the end of the
file, the file length is the sum of the byte counts streamed for the pieces of
`pre`, it is the counter `totalBytes` (an `int64`), and it is the sum of the
declared sizes when every completed piece served its declared `fileSize`. -/
theorem file_length_invariant (lib : Lib) (env : Env) (m : Manifest) (pre rest : List Piece)
    (s : State) (u : Unit) (hsplit : sortPieces lib m.pieces = pre ++ rest)
    (hrun : loop lib env m.originalFileSize pre State.init = .ok s u) :
    loop lib env m.originalFileSize (sortPieces lib m.pieces) State.init
        = loop lib env m.originalFileSize rest s ∧
      s.file.pos = s.file.data.length ∧
      s.file.data.length = (pre.map (fun p => (env.bodyOf p.url).length)).sum ∧
      s.totalBytes = wrap64 s.file.data.length ∧
      ((s.file.data.length : Int) < 2 ^ 63 → s.totalBytes = s.file.data.length) ∧
      ((∀ p ∈ pre, ((env.bodyOf p.url).length : Int) = p.fileSize) →
        (s.file.data.length : Int) = (pre.map (·.fileSize)).sum) := by
  obtain ⟨hi, hd, _, _⟩ := loop_ok lib env m.originalFileSize pre State.init s u inv_init hrun
  have hlen : s.file.data.length = (pre.map (fun p => (env.bodyOf p.url).length)).sum := by
    rw [hd, ← length_flatten_bodies]
    simp [State.init]
  refine ⟨?_, hi.1, hlen, hi.2, ?_, ?_⟩
  · rw [hsplit, loop_append, hrun]
  · intro hlt
    rw [hi.2]
    exact wrap64_of_range _ (by omega) hlt
  · intro hall
    rw [hlen]
    exact sum_sizes_of_served env pre hall

/-- C6. Fatal abort: when the pieces `pre` before piece `p` of the sorted slice
completed and `fetchPiece` returns an error for `p`, the run ends with exit code
1, `fetchPiece` was called for the pieces of `pre` and for `p` and for no later
piece, and the bytes appended for `pre` (their bodies) are a prefix of the
output file. -/
theorem abort_on_piece_failure (lib : Lib) (env : Env) (m : Manifest) (pre post : List Piece)
    (p : Piece) (s s1 s2 : State) (off : Int) (u : Unit)
    (hsplit : sortPieces lib m.pieces = pre ++ p :: post)
    (hpre : loop lib env m.originalFileSize pre State.init = .ok s u)
    (hseek : seekEnd env s = .ok s1 off)
    (hfail : fetchPiece lib env p.url m.originalFileSize (s1.emit (offsetCheck off p)) = .err s2) :
    (assemble lib env m).exitCode = 1 ∧
      fetchedURLs (assemble lib env m).state.trace = (pre ++ [p]).map (·.url) ∧
      s.file.data = (pre.map (fun x => env.bodyOf x.url)).flatten ∧
      s.file.data <+: (assemble lib env m).state.file.data := by
  obtain ⟨hi, hd, hf, _⟩ := loop_ok lib env m.originalFileSize pre State.init s u inv_init hpre
  obtain ⟨_, hi1, rfl, a1⟩ := seekEnd_ok hi hseek
  obtain ⟨added, evs, a2, q⟩ := fetchPiece_any lib env p.url m.originalFileSize
    (s1.emit (offsetCheck s.file.data.length p)) (inv_emit hi1 _)
  rw [hfail] at a2
  simp only [Res.state] at a2
  have a := advance_emit (advance_trans (advance_emit a1 (offsetCheck s.file.data.length p)) a2)
    [.errPiece]
  have hstep : pieceStep lib env m.originalFileSize s p = .err (s2.emit [.errPiece]) := by
    unfold pieceStep
    rw [hseek]
    simp only
    rw [hfail]
  have hasm : assemble lib env m = .err (s2.emit [.errPiece]) := by
    unfold assemble
    rw [hsplit, loop_append, hpre]
    simp only [loop]
    rw [hstep]
  rw [hasm]
  refine ⟨rfl, ?_, ?_, ?_⟩
  · simp only [Res.state]
    rw [a.trace, fetchedURLs_append, hf]
    have e1 : fetchedURLs State.init.trace = [] := rfl
    have e2 : fetchedURLs [Event.errPiece] = [] := rfl
    simp [fetchedURLs_append, fetchedURLs_fetch, fetchedURLs_offsetCheck, fetchedURLs_quiet q,
      e1, e2]
  · simpa [State.init] using hd
  · simp only [Res.state]
    rw [a.data]
    exact ⟨_, rfl⟩

theorem filter_hash_quiet {evs : List Event} (h : Quiet evs) :
    evs.filter Event.isHashWarning = [] := by
  rw [List.filter_eq_nil_iff]
  intro e he
  obtain ⟨pct, rfl⟩ := h e he
  simp [Event.isHashWarning]

theorem filter_hash_offsetCheck (off : Int) (p : Piece) :
    (offsetCheck off p).filter Event.isHashWarning = [] := by
  unfold offsetCheck
  split <;> rfl

theorem filter_hash_sizeCheck (off : Int) (p : Piece) :
    (sizeCheck off p).filter Event.isHashWarning = [] := by
  unfold sizeCheck
  split <;> rfl

theorem filter_hash_hashCheck (lib : Lib) (p : Piece) (hs : GoString × GoString) :
    (hashCheck lib p hs).filter Event.isHashWarning = hashCheck lib p hs := by
  unfold hashCheck
  split <;> rfl

/-- C3. Dual-hash acceptance: the hash check of a piece prints nothing when
`EqualFold` accepts the declared hash against the first or the second digest,
and exactly one hash-mismatch warning when it accepts neither; and in a
completed iteration of the loop the digests checked are the SHA-1 and SHA-256 of
the body that was fetched, and the hash-mismatch warnings printed by the
iteration are exactly those of that check. -/
theorem dual_hash_acceptance (lib : Lib) (p : Piece) :
    (∀ hashes : GoString × GoString,
      ((lib.equalFold p.hashValue hashes.1 = true ∨ lib.equalFold p.hashValue hashes.2 = true) →
        hashCheck lib p hashes = []) ∧
      ((lib.equalFold p.hashValue hashes.1 = false ∧ lib.equalFold p.hashValue hashes.2 = false) →
        hashCheck lib p hashes = [.warnHash p.hashValue hashes.1])) ∧
    (∀ (env : Env) (filesize : Int) (s t : State) (u : Unit), Inv s →
      pieceStep lib env filesize s p = .ok t u →
      ∃ evs, t.trace = s.trace ++ evs ∧
        evs.filter Event.isHashWarning
          = hashCheck lib p (lib.sha1hex (env.bodyOf p.url), lib.sha256hex (env.bodyOf p.url))) := by
  refine ⟨?_, ?_⟩
  · intro hashes
    refine ⟨?_, ?_⟩
    · intro h
      unfold hashCheck
      rcases h with h | h <;> simp [h]
    · rintro ⟨h1, h2⟩
      unfold hashCheck
      simp [h1, h2]
  · intro env filesize s t u hi hr
    obtain ⟨st, evs, hp, _, _, q, _, a⟩ := pieceStep_ok hi hr
    refine ⟨_, a.trace, ?_⟩
    rw [bodyOf_of_stream hp]
    simp [List.filter_append, filter_hash_offsetCheck, filter_hash_sizeCheck,
      filter_hash_hashCheck, filter_hash_quiet q, Event.isHashWarning]

/-! ## Processing order -/

theorem fetchedURLs_fileSizeCheck (off : Int) (m : Manifest) :
    fetchedURLs (fileSizeCheck off m) = [] := by
  unfold fileSizeCheck
  split <;> rfl

theorem finalize_any (env : Env) (m : Manifest) (s : State) :
    ∃ evs, Advance s (finalize env m s).state [] evs ∧ fetchedURLs evs = [] := by
  unfold finalize
  obtain ⟨e1, a1, f1⟩ := seekEnd_any env s
  cases h1 : seekEnd env s with
  | err s1 =>
    rw [h1] at a1
    exact ⟨e1, a1, f1⟩
  | panic s1 =>
    rw [h1] at a1
    exact ⟨e1, a1, f1⟩
  | ok s1 off =>
    rw [h1] at a1
    refine ⟨_, advance_emit (advance_emit a1 (fileSizeCheck off m)) [.completed off], ?_⟩
    rw [fetchedURLs_append, fetchedURLs_append, f1, fetchedURLs_fileSizeCheck]
    rfl

/-- The pieces `assemble` calls `fetchPiece` for are an initial segment of the
sorted slice, and the whole of it when the loop completes. -/
theorem assemble_fetches (lib : Lib) (env : Env) (m : Manifest) :
    fetchedURLs (assemble lib env m).state.trace <+: (sortPieces lib m.pieces).map (·.url) ∧
    ((assemble lib env m).exitCode = 0 →
      fetchedURLs (assemble lib env m).state.trace = (sortPieces lib m.pieces).map (·.url) ∧
      (assemble lib env m).state.file.data
        = ((sortPieces lib m.pieces).map (fun p => env.bodyOf p.url)).flatten) := by
  obtain ⟨added, evs, a, f⟩ :=
    loop_any lib env m.originalFileSize (sortPieces lib m.pieces) State.init inv_init
  unfold assemble
  cases hl : loop lib env m.originalFileSize (sortPieces lib m.pieces) State.init with
  | err s =>
    rw [hl] at a
    refine ⟨?_, ?_⟩
    · simp only [Res.state] at a ⊢
      rw [a.trace]
      simpa [State.init] using f
    · intro h
      cases h
  | panic s =>
    rw [hl] at a
    refine ⟨?_, ?_⟩
    · simp only [Res.state] at a ⊢
      rw [a.trace]
      simpa [State.init] using f
    · intro h
      cases h
  | ok s u =>
    obtain ⟨_, hd, hf, _⟩ := loop_ok lib env m.originalFileSize _ State.init s u inv_init hl
    obtain ⟨e2, a2, f2⟩ := finalize_any env m s
    have hurls : fetchedURLs (finalize env m s).state.trace
        = (sortPieces lib m.pieces).map (·.url) := by
      rw [a2.trace, fetchedURLs_append, f2, hf]
      simp [State.init, fetchedURLs]
    simp only
    refine ⟨by rw [hurls], fun _ => ⟨hurls, ?_⟩⟩
    rw [a2.data, hd]
    simp [State.init]

/-- C2. Ascending-offset processing: with a sound library, the slice the loop
runs over is a permutation of `manifest.pieces` in non-decreasing order of
`fileOffset`; `fetchPiece` is called along that slice (for an initial segment of
it, for all of it when the run completes, and then the output file is the
concatenation of the bodies in that order); and a manifest whose piece array is
a permutation of this one's, the offsets being pairwise distinct, gives the same
run, output file included. -/
theorem ascending_offset_processing (lib : Lib) (env : Env) (m : Manifest) (hl : lib.Sound) :
    (sortPieces lib m.pieces).Perm m.pieces ∧
    (sortPieces lib m.pieces).Sorted (fun a b => a.fileOffset ≤ b.fileOffset) ∧
    fetchedURLs (assemble lib env m).state.trace <+: (sortPieces lib m.pieces).map (·.url) ∧
    ((assemble lib env m).exitCode = 0 →
      fetchedURLs (assemble lib env m).state.trace = (sortPieces lib m.pieces).map (·.url) ∧
      (assemble lib env m).state.file.data
        = ((sortPieces lib m.pieces).map (fun p => env.bodyOf p.url)).flatten) ∧
    (∀ pieces : List Piece, pieces.Perm m.pieces → (m.pieces.map (·.fileOffset)).Nodup →
      assemble lib env ⟨pieces, m.originalFileSize⟩ = assemble lib env m) := by
  refine ⟨sortPieces_perm hl _, sortPieces_sorted hl _, (assemble_fetches lib env m).1,
    (assemble_fetches lib env m).2, ?_⟩
  intro pieces hp hn
  unfold assemble
  simp only [sortPieces_of_perm hl hp hn]
  cases loop lib env m.originalFileSize (sortPieces lib m.pieces) State.init with
  | ok s u => simp [finalize, fileSizeCheck]
  | err s => rfl
  | panic s => rfl

/-! ## Offset drift -/

theorem contiguous_at (pre : List Piece) (p q : Piece) (post : List Piece)
    (h : Contiguous (pre ++ p :: q :: post)) : p.fileOffset + p.fileSize = q.fileOffset := by
  induction pre with
  | nil => exact h.1
  | cons x rest ih =>
    cases rest with
    | nil => exact h.2.1
    | cons y rest2 => exact ih h.2

/-- C4 (amended). Offset drift: when `originalFileSize` is not zero, the sorted
pieces are contiguous, every fetch succeeds (each piece URL serves a body read to
`io.EOF`, no write or seek fails), the pieces before `p` have not served more
than they declared in total (the bytes served for them add up to at most the
`fileOffset` of `p`), and `p` serves fewer bytes than its `fileSize`, then the
check before the next piece `q` prints the inconsistent-piece-offset warning,
and right after it `fetchPiece` is called for `q`. -/
theorem offset_drift_detected (lib : Lib) (env : Env) (m : Manifest) (pre post : List Piece)
    (p q : Piece) (hn : env.NoFault) (hsize : m.originalFileSize ≠ 0)
    (hsplit : sortPieces lib m.pieces = pre ++ p :: q :: post)
    (hcontig : Contiguous (sortPieces lib m.pieces))
    (hserve : ∀ x ∈ sortPieces lib m.pieces, ∃ body, env.Serves x.url body)
    (hnodrift : (((pre.map (fun x => (env.bodyOf x.url).length)).sum : Nat) : Int) ≤ p.fileOffset)
    (hshort : ((env.bodyOf p.url).length : Int) < p.fileSize) :
    ∃ t1 t2, (assemble lib env m).state.trace
        = t1 ++ [.warnOffset q.fileOffset
            (((pre ++ [p]).map (fun x => (env.bodyOf x.url).length)).sum : Nat),
            .fetch q.url] ++ t2 ∧
      fetchedURLs t1 = (pre ++ [p]).map (·.url) := by
  have hc := contiguous_at pre p q post (hsplit ▸ hcontig)
  obtain ⟨sEnd, hrun⟩ := loop_total lib env m.originalFileSize hn hsize
    (sortPieces lib m.pieces) State.init hserve
  have hsplit2 : sortPieces lib m.pieces = (pre ++ [p]) ++ q :: post := by
    rw [hsplit]
    simp
  rw [hsplit2] at hrun
  obtain ⟨s1, h1, h2⟩ := loop_ok_of_append hrun
  obtain ⟨hi1, hd1, hf1, _⟩ :=
    loop_ok lib env m.originalFileSize (pre ++ [p]) State.init s1 () inv_init h1
  have hlen1 : s1.file.data.length
      = ((pre ++ [p]).map (fun x => (env.bodyOf x.url).length)).sum := by
    rw [hd1, ← length_flatten_bodies]
    simp [State.init]
  have hsum : ((((pre ++ [p]).map (fun x => (env.bodyOf x.url).length)).sum : Nat) : Int)
      = ((pre.map (fun x => (env.bodyOf x.url).length)).sum : Nat)
        + (env.bodyOf p.url).length := by
    simp
  simp only [loop] at h2
  cases hq : pieceStep lib env m.originalFileSize s1 q with
  | err s2 => rw [hq] at h2; cases h2
  | panic s2 => rw [hq] at h2; cases h2
  | ok s2 u2 =>
    rw [hq] at h2
    simp only at h2
    obtain ⟨st, evs, hp, _, hi2, _, _, a⟩ := pieceStep_ok hi1 hq
    obtain ⟨added3, evs3, a3, _⟩ := loop_any lib env m.originalFileSize post s2 hi2
    rw [h2] at a3
    obtain ⟨evs4, a4, _⟩ := finalize_any env m sEnd
    have hoc : offsetCheck s1.file.data.length q
        = [.warnOffset q.fileOffset
            (((pre ++ [p]).map (fun x => (env.bodyOf x.url).length)).sum : Nat)] := by
      unfold offsetCheck
      rw [hlen1, if_pos]
      rw [hsum]
      omega
    have hasm : assemble lib env m = finalize env m sEnd := by
      unfold assemble
      rw [hsplit2, hrun]
    rw [hasm, a4.trace]
    simp only [Res.state] at a3
    rw [a3.trace, a.trace, hoc]
    refine ⟨s1.trace, evs ++ sizeCheck (s1.file.data.length + st.body.length : Nat) q
      ++ hashCheck lib q (lib.sha1hex st.body, lib.sha256hex st.body) ++ evs3 ++ evs4, ?_, ?_⟩
    · simp
    · rw [hf1]
      simp [State.init, fetchedURLs]

/-! ## Declared sizes and hashes -/

theorem map_url_sortPieces (lib : Lib) (ps : List Piece) :
    (sortPieces lib ps).map (·.url)
      = (lib.sortOrder (ps.map (·.fileOffset))).filterMap (fun i => (ps.map (·.url))[i]?) := by
  unfold sortPieces
  rw [List.map_filterMap]
  apply List.filterMap_congr
  intro i _
  simp

/-- With a non-zero `originalFileSize` in both, two manifests with the same piece
URLs and offsets give the same output file, whatever sizes and hashes they
declare: the concatenation of the served bodies in sorted order. -/
theorem declared_fields_ignored (lib : Lib) (env : Env) (m1 m2 : Manifest) (hl : lib.Sound)
    (hn : env.NoFault)
    (hu : m1.pieces.map (·.url) = m2.pieces.map (·.url))
    (ho : m1.pieces.map (·.fileOffset) = m2.pieces.map (·.fileOffset))
    (hs : ∀ p ∈ m1.pieces, ∃ body, env.Serves p.url body)
    (h1 : m1.originalFileSize ≠ 0) (h2 : m2.originalFileSize ≠ 0) :
    (assemble lib env m1).exitCode = 0 ∧ (assemble lib env m2).exitCode = 0 ∧
      (assemble lib env m1).state.file.data
        = ((sortPieces lib m1.pieces).map (fun p => env.bodyOf p.url)).flatten ∧
      (assemble lib env m2).state.file.data = (assemble lib env m1).state.file.data := by
  have hurl : (sortPieces lib m2.pieces).map (·.url) = (sortPieces lib m1.pieces).map (·.url) := by
    rw [map_url_sortPieces, map_url_sortPieces, hu, ho]
  have hs1 : ∀ p ∈ sortPieces lib m1.pieces, ∃ body, env.Serves p.url body :=
    fun p hp => hs p ((sortPieces_perm hl _).mem_iff.mp hp)
  have hs2 : ∀ p ∈ sortPieces lib m2.pieces, ∃ body, env.Serves p.url body := by
    intro p hp
    have : p.url ∈ (sortPieces lib m1.pieces).map (·.url) := by
      rw [← hurl]
      exact List.mem_map_of_mem _ hp
    obtain ⟨p1, hp1, he⟩ := List.mem_map.mp this
    rw [← he]
    exact hs1 p1 hp1
  have run : ∀ m : Manifest, m.originalFileSize ≠ 0 →
      (∀ p ∈ sortPieces lib m.pieces, ∃ body, env.Serves p.url body) →
      (assemble lib env m).exitCode = 0 ∧ (assemble lib env m).state.file.data
        = (((sortPieces lib m.pieces).map (·.url)).map env.bodyOf).flatten := by
    intro m hm hsm
    obtain ⟨t, ht⟩ := loop_total lib env m.originalFileSize hn hm _ State.init hsm
    obtain ⟨_, hd, _, _⟩ := loop_ok lib env m.originalFileSize _ State.init t () inv_init ht
    unfold assemble
    rw [ht]
    simp only [finalize]
    rw [seekEnd_of_ok env t (hn.2 _)]
    refine ⟨rfl, ?_⟩
    simp only [Res.state, State.emit]
    rw [hd]
    simp [State.init, List.map_map, Function.comp_def]
  obtain ⟨e1, d1⟩ := run m1 h1 hs1
  obtain ⟨e2, d2⟩ := run m2 h2 hs2
  refine ⟨e1, e2, ?_, ?_⟩
  · rw [d1]
    simp [List.map_map, Function.comp_def]
  · rw [d1, d2, hurl]

set_option maxRecDepth 100000 in
/-- C5 (the code at the failing input). The manifests `zeroSizeManifest` and
`⟨[pieceA, pieceB], 6⟩` differ in `originalFileSize` only; on the same server the
first run panics in the progress computation of `fetchPiece` after the first
`Write` (exit code 2, output file `abc`), the second completes (exit code 0,
output file `abcdef`). -/
theorem zero_size_run_panics :
    (assemble stdLib (.ofServer demoServer) zeroSizeManifest).exitCode = 2 ∧
    (assemble stdLib (.ofServer demoServer) zeroSizeManifest).state.file.data = bytes "abc" ∧
    (assemble stdLib (.ofServer demoServer) ⟨[pieceA, pieceB], 6⟩).exitCode = 0 ∧
    (assemble stdLib (.ofServer demoServer) ⟨[pieceA, pieceB], 6⟩).state.file.data
      = bytes "abcdef" := by
  decide

/-! ## The output file name -/

/-- C10 (counterexample). With `-o` omitted, the URL `a` has the base name `a`,
shorter than four bytes, and the file name computation panics; the URL
`http://h/manifest.js` gives `manifespkg`, which is not its base name with the
extension replaced. -/
theorem outputFilename_counterexample :
    outputFilename [] (normalizeURL (bytes "a")) = none ∧
    (main stdLib (.ofServer demoServer) [] [bytes "a"]).exitCode = 2 ∧
    outputFilename [] (normalizeURL (bytes "http://h/manifest.js")) = some (bytes "manifespkg") := by
  decide

/-- C10 (amended). The output file name of `main`: the `-o` value when it is not
empty; otherwise, when the base name of the rewritten URL has at least four
bytes, that base name with its last four bytes replaced by `pkg`, which for a
base name `stem.json` is `stem.pkg`; and a file that `main` creates has the name
so computed. -/
theorem outputFilename_derivation (output url : GoString) :
    (output ≠ [] → outputFilename output (normalizeURL url) = some output) ∧
    (output = [] → 4 ≤ (base (normalizeURL url)).length →
      outputFilename output (normalizeURL url)
        = some ((base (normalizeURL url)).take ((base (normalizeURL url)).length - 4)
            ++ bytes "pkg")) ∧
    (output = [] → ∀ stem, base (normalizeURL url) = stem ++ bytes ".json" →
      outputFilename output (normalizeURL url) = some (stem ++ bytes ".pkg")) ∧
    (∀ (lib : Lib) (env : Env) (rest : List GoString) (name : GoString) (content : List UInt8),
      (main lib env output (url :: rest)).output = some (name, content) →
      outputFilename output (normalizeURL url) = some name) := by
  refine ⟨?_, ?_, ?_, ?_⟩
  · intro h
    simp [outputFilename, h]
  · intro h h4
    simp [outputFilename, h, h4]
  · intro h stem hb
    have h4 : 4 ≤ (base (normalizeURL url)).length := by
      rw [hb, List.length_append]
      have : (bytes ".json").length = 5 := by decide
      omega
    have e1 : bytes ".json" = [46] ++ bytes "json" := by decide
    have e2 : bytes ".pkg" = [46] ++ bytes "pkg" := by decide
    have e3 : (bytes "json").length = 4 := by decide
    simp only [outputFilename, h, h4, ne_eq, not_true_eq_false, if_false, if_true]
    rw [hb, e1, e2, ← List.append_assoc, ← List.append_assoc]
    have := take_append_sub (stem ++ [46]) (bytes "json")
    rw [e3] at this
    rw [this]
  · intro lib env rest name content hm
    unfold main at hm
    simp only at hm
    cases hf : outputFilename output (normalizeURL url) with
    | none =>
      rw [hf] at hm
      simp at hm
    | some filename =>
      rw [hf] at hm
      simp only at hm
      cases hmf : fetchManifest env (normalizeURL url) with
      | none =>
        rw [hmf] at hm
        simp at hm
      | some m =>
        rw [hmf] at hm
        simp only at hm
        split at hm
        · simp at hm
        · simp only [Option.some.injEq, Prod.mk.injEq] at hm
          rw [hm.1]

/-- The example of the claim: `.../game_0.pkg` is rewritten to `.../game.json`
and gives `game.pkg`; a non-empty `-o` value is returned as it is. -/
theorem outputFilename_derivation_witness :
    normalizeURL (bytes "http://h/game_0.pkg") = bytes "http://h/game.json" ∧
    outputFilename [] (normalizeURL (bytes "http://h/game_0.pkg")) = some (bytes "game.pkg") ∧
    outputFilename (bytes "out.bin") (normalizeURL (bytes "http://h/game_0.pkg"))
      = some (bytes "out.bin") :=
  ⟨by decide,
    (outputFilename_derivation [] (bytes "http://h/game_0.pkg")).2.2.1 rfl (bytes "game")
      (by decide),
    (outputFilename_derivation (bytes "out.bin") (bytes "http://h/game_0.pkg")).1 (by decide)⟩

theorem normalizeURL_result_witness :
    normalizeURL (bytes "http://h/a_sc.pkg") = bytes "http://h/a.json" ∧
    normalizeURL (bytes "http://h/a-DP.pkg") = bytes "http://h/a.json" ∧
    normalizeURL (bytes "http://h/a_0.pkg") = bytes "http://h/a.json" ∧
    normalizeURL (bytes "http://h/a.pkg") = bytes "http://h/a.pkg" :=
  ⟨(normalizeURL_result _).1 (bytes "http://h/a") (by decide),
    (normalizeURL_result _).2.1 (bytes "http://h/a") (by decide),
    (normalizeURL_result _).2.2.1 (bytes "http://h/a") (by decide),
    (normalizeURL_result _).2.2.2 (by decide) (by decide) (by decide)⟩

theorem normalizeURL_idempotent_witness :
    normalizeURL (normalizeURL (bytes "http://h/a_0.pkg")) = normalizeURL (bytes "http://h/a_0.pkg") ∧
    normalizeURL (bytes "http://h/a.json") = bytes "http://h/a.json" :=
  ⟨(normalizeURL_idempotent _).1,
    (normalizeURL_idempotent _).2 (by decide) (by decide) (by decide)⟩

/-! ## The theorems at concrete inputs -/

set_option maxRecDepth 100000 in
/-- The end-to-end scenario with its pieces out of order: the sorted slice is
`[pieceA, pieceB]`, the run fetches `A` then `B`, and the manifest with the
pieces in the other order gives the same run. -/
theorem ascending_offset_processing_witness :
    sortPieces stdLib demoManifest.pieces = [pieceA, pieceB] ∧
    fetchedURLs (assemble stdLib (.ofServer demoServer) demoManifest).state.trace
      = [bytes "A", bytes "B"] ∧
    (assemble stdLib (.ofServer demoServer) demoManifest).state.file.data = bytes "abcdef" ∧
    assemble stdLib (.ofServer demoServer) ⟨[pieceA, pieceB], 6⟩
      = assemble stdLib (.ofServer demoServer) demoManifest :=
  have h := ascending_offset_processing stdLib (.ofServer demoServer) demoManifest stdLib_sound
  ⟨by decide, (h.2.2.2.1 (by decide)).1, (h.2.2.2.1 (by decide)).2,
    h.2.2.2.2 [pieceA, pieceB] (List.Perm.swap _ _ _) (by decide)⟩

set_option maxRecDepth 100000 in
/-- The hash check on piece `A`: silent on its SHA-1 in capitals, silent on a
pair whose second digest matches, one warning on a pair of other digests. -/
theorem dual_hash_acceptance_witness :
    hashCheck stdLib pieceA (bytes "A9993E364706816ABA3E25717850C26C9CD0D89D", bytes "00") = [] ∧
    hashCheck stdLib pieceA (bytes "00", bytes "a9993e364706816aba3e25717850c26c9cd0d89d") = [] ∧
    hashCheck stdLib pieceA (bytes "00", bytes "11")
      = [.warnHash (bytes "a9993e364706816aba3e25717850c26c9cd0d89d") (bytes "00")] :=
  ⟨((dual_hash_acceptance stdLib pieceA).1 _).1 (.inl (by decide)),
    ((dual_hash_acceptance stdLib pieceA).1 _).1 (.inr (by decide)),
    ((dual_hash_acceptance stdLib pieceA).1 _).2 ⟨by decide, by decide⟩⟩

set_option maxRecDepth 100000 in
/-- C4 (counterexample). Three contiguous pieces of declared size 3; every fetch
succeeds; `A` serves 4 bytes and `B` serves 2, fewer than declared. When `C`
starts the file has 6 bytes, the declared offset of `C`: the only offset warning
of the run is the one before `B`, none is printed before `C`. -/
theorem offset_drift_counterexample :
    sortPieces stdLib driftManifest.pieces = driftManifest.pieces ∧
    Contiguous (sortPieces stdLib driftManifest.pieces) ∧
    (assemble stdLib (.ofServer driftServer) driftManifest).exitCode = 0 ∧
    (((Env.ofServer driftServer).bodyOf (bytes "B")).length : Int) < 3 ∧
    fetchedURLs (assemble stdLib (.ofServer driftServer) driftManifest).state.trace
      = [bytes "A", bytes "B", bytes "C"] ∧
    warnings (assemble stdLib (.ofServer driftServer) driftManifest).state.trace
      = [.warnSize 3 4, .warnOffset 3 4] := by
  refine ⟨by decide, ?_, by decide, by decide, by decide, by decide⟩
  rw [show sortPieces stdLib driftManifest.pieces = driftManifest.pieces by decide]
  exact ⟨by decide, by decide, trivial⟩

set_option maxRecDepth 100000 in
/-- Pieces `A`, `B`, `C` of declared size 3 with `A` serving `ab` and `B` serving
`de`: when `B` starts the file has 2 bytes, less than the offset 3 of `B`, and
`B` is one byte short too; the warning `expected 6, got 4` is printed before `C`
is fetched. -/
theorem offset_drift_detected_witness :
    ∃ t1 t2, (assemble stdLib (.ofServer shortServer) ⟨[pieceC, pieceA, pieceB], 9⟩).state.trace
        = t1 ++ [.warnOffset 6 (4 : Nat), .fetch (bytes "C")] ++ t2 ∧
      fetchedURLs t1 = [bytes "A", bytes "B"] :=
  offset_drift_detected stdLib (.ofServer shortServer) ⟨[pieceC, pieceA, pieceB], 9⟩
    [pieceA] [] pieceB pieceC ⟨fun _ _ => rfl, fun _ => rfl⟩ (by decide) (by decide)
    (by
      rw [show sortPieces stdLib [pieceC, pieceA, pieceB] = [pieceA, pieceB, pieceC] by decide]
      exact ⟨by decide, by decide, trivial⟩)
    (by
      rw [show sortPieces stdLib [pieceC, pieceA, pieceB] = [pieceA, pieceB, pieceC] by decide]
      intro x hx
      simp only [List.mem_cons, List.mem_singleton, List.not_mem_nil, or_false] at hx
      rcases hx with rfl | rfl | rfl
      · exact ⟨bytes "ab", ⟨[], bytes "ab", true⟩, rfl, rfl, rfl⟩
      · exact ⟨bytes "de", ⟨[], bytes "de", true⟩, rfl, rfl, rfl⟩
      · exact ⟨bytes "ghi", ⟨[], bytes "ghi", true⟩, rfl, rfl, rfl⟩)
    (by decide) (by decide)

set_option maxRecDepth 100000 in
/-- Pieces `A`, `B`, `C` on a server where the body of `B` breaks off after two
bytes: the run exits with code 1, `C` is never fetched, and `abc` is a prefix of
the output file. -/
theorem abort_on_piece_failure_witness :
    (assemble stdLib (.ofServer brokenServer) ⟨[pieceC, pieceB, pieceA], 9⟩).exitCode = 1 ∧
    fetchedURLs (assemble stdLib (.ofServer brokenServer) ⟨[pieceC, pieceB, pieceA], 9⟩).state.trace
      = [bytes "A", bytes "B"] ∧
    bytes "abc" <+: (assemble stdLib (.ofServer brokenServer)
      ⟨[pieceC, pieceB, pieceA], 9⟩).state.file.data := by
  have h := abort_on_piece_failure stdLib (.ofServer brokenServer) ⟨[pieceC, pieceB, pieceA], 9⟩
    [pieceA] [pieceC] pieceB
    (loop stdLib (.ofServer brokenServer) 9 [pieceA] State.init).state
    (seekEnd (.ofServer brokenServer)
      (loop stdLib (.ofServer brokenServer) 9 [pieceA] State.init).state).state
    (fetchPiece stdLib (.ofServer brokenServer) (bytes "B") 9
      ((seekEnd (.ofServer brokenServer)
        (loop stdLib (.ofServer brokenServer) 9 [pieceA] State.init).state).state.emit
          (offsetCheck 3 pieceB))).state
    3 () (by decide) (by decide) (by decide) (by decide)
  have e : (loop stdLib (.ofServer brokenServer) 9 [pieceA] State.init).state.file.data
      = bytes "abc" := by decide
  rw [e] at h
  exact ⟨h.1, h.2.1, h.2.2.2⟩

set_option maxRecDepth 100000 in
/-- The end-to-end scenario after piece `A`: the file has 3 bytes, the position
is 3 and `totalBytes` is 3. -/
theorem file_length_invariant_witness :
    (loop stdLib (.ofServer demoServer) 6 [pieceA] State.init).state.file.pos = 3 ∧
    (loop stdLib (.ofServer demoServer) 6 [pieceA] State.init).state.file.data.length = 3 ∧
    (loop stdLib (.ofServer demoServer) 6 [pieceA] State.init).state.totalBytes = 3 := by
  have h := file_length_invariant stdLib (.ofServer demoServer) demoManifest [pieceA] [pieceB]
    (loop stdLib (.ofServer demoServer) 6 [pieceA] State.init).state () (by decide) (by decide)
  have e : (loop stdLib (.ofServer demoServer) 6 [pieceA] State.init).state.file.data.length
      = 3 := by decide
  rw [e] at h
  exact ⟨h.2.1, e, h.2.2.2.2.1 (by decide)⟩

end FetchPKG
